import Mathlib

/-!
A verification development for `src/auto_clean_downloads.py`.

The program is embedded shallowly:

* A filesystem is a finite list of file entries; a path is its list of
  components.  Directories are implicit (an entry's path minus its last
  component); only regular files are entries, which matches the program's
  `is_file()` filters.  Directory iteration order is the list order.
* File contents are a symbolic `Content`: opaque byte blobs (`bytes`), the
  JSON history store (`store`), and the output of a PDF merge (`merged`,
  identified by the merged files' paths and the timestamp).  SHA-256 is
  modelled as an injective fingerprint, i.e. by the content itself;
  `calculate_hash` fails (Python: returns `""`) exactly on unreadable files,
  which is the per-file I/O failure the model represents.
* `datetime.now()` is modelled by a per-run counter (`clock`), incremented
  each time the program takes a timestamp.
* `shutil.move` is modelled by `fsMove`, which (as `os.rename` does)
  replaces any file already present at the destination.
* Move/delete I/O failures (the `except` branches of `move_file`,
  `remove_file` and the merge) are not modelled: in the model every
  attempted filesystem mutation succeeds.  Hash failures, the one per-item
  failure the claims quantify over, are modelled via the `readable` flag.
* Console output (`log`, `print_summary`) is ignored; the `verbose` flag
  only affects printing and is dropped.  `str.lower` is modelled by
  `lowerStr`, an ASCII lower-casing (the extension tables are ASCII).
-/

namespace AutoClean

/-- A filesystem path, as its list of components (root-first). -/
abbrev FsPath := List String

/-- Index of the last `'.'` in a list of characters, if any. -/
def lastDotIdx (cs : List Char) : Option Nat :=
  match cs.reverse.findIdx? (· == '.') with
  | some j => some (cs.length - 1 - j)
  | none => none

/-- `pathlib.PurePath.suffix` of a file name: the part of the name from its
last dot on, provided that dot is neither the first nor the last character;
otherwise the empty string (CPython: `0 < i < len(name) - 1`). -/
def pySuffix (name : String) : String :=
  match lastDotIdx name.data with
  | some i => if 0 < i ∧ i + 1 < name.data.length then String.mk (name.data.drop i) else ""
  | none => ""

/-- `pathlib.PurePath.stem` of a file name: the name with `pySuffix`
removed. -/
def pyStem (name : String) : String :=
  match lastDotIdx name.data with
  | some i => if 0 < i ∧ i + 1 < name.data.length then String.mk (name.data.take i) else name
  | none => name

/-- The final component of a path (`Path.name`). -/
def fileName (p : FsPath) : String := p.getLastD ""

/-- `p` is a direct child of directory `dir`. -/
def inDir (dir p : FsPath) : Bool := !p.isEmpty && p.dropLast == dir

/-- The `CATEGORIES` table, in its Python insertion (= iteration) order.
The Python values are sets, used only for membership tests, so lists are a
faithful rendering. -/
def CATEGORIES : List (String × List String) :=
  [("Images", [".jpg", ".jpeg", ".png", ".gif", ".bmp", ".svg", ".webp", ".ico", ".tiff", ".heic"]),
   ("Documents", [".doc", ".docx", ".txt", ".rtf", ".odt", ".pages", ".tex", ".wpd", ".wps"]),
   ("PDFs", [".pdf"]),
   ("Archives", [".zip", ".rar", ".7z", ".tar", ".gz", ".bz2", ".xz", ".iso", ".dmg"]),
   ("Installers", [".exe", ".msi", ".dmg", ".pkg", ".deb", ".rpm", ".appimage"]),
   ("Video", [".mp4", ".avi", ".mkv", ".mov", ".wmv", ".flv", ".webm", ".m4v", ".mpg", ".mpeg"]),
   ("Audio", [".mp3", ".wav", ".flac", ".aac", ".ogg", ".wma", ".m4a", ".opus"]),
   ("Code", [".py", ".js", ".java", ".cpp", ".c", ".h", ".cs", ".php", ".rb", ".go", ".rs",
             ".swift", ".kt", ".ts", ".jsx", ".tsx", ".html", ".css", ".scss", ".json", ".xml",
             ".yaml", ".yml", ".sh", ".bat", ".ps1"])]

/-- The `TEMP_EXTENSIONS` set. -/
def TEMP_EXTENSIONS : List String :=
  [".crdownload", ".part", ".tmp", ".partial", ".download", ".temp"]

/-- The fixed history file name. -/
def HISTORY_FILE : String := ".cleanup_history.json"

/-- ASCII lower-casing of one character (`str.lower`; the program only
compares against ASCII extension tables). -/
def asciiLower (c : Char) : Char :=
  if 'A' ≤ c ∧ c ≤ 'Z' then Char.ofNat (c.toNat + 32) else c

/-- ASCII lower-casing of a string (`str.lower`). -/
def lowerStr (s : String) : String := String.mk (s.data.map asciiLower)

/-- `suf` is a suffix of `s` (`str.endswith` / the `*.pdf` glob). -/
def strEndsWith (s suf : String) : Bool := suf.data.isSuffixOf s.data

/-- `DownloadsCleaner.get_category`: first category in table order whose
extension set contains the lower-cased suffix, else `Others`. -/
def get_category (name : String) : String :=
  match CATEGORIES.find? (fun c => c.2.contains (lowerStr (pySuffix name))) with
  | some c => c.1
  | none => "Others"

/-- The temp-file test `file_path.suffix.lower() in TEMP_EXTENSIONS`. -/
def isTemp (name : String) : Bool := TEMP_EXTENSIONS.contains (lowerStr (pySuffix name))

/-- The `self.stats` counters. -/
structure Stats where
  categorized : Nat
  temp_removed : Nat
  duplicates_found : Nat
  pdfs_merged : Nat
  errors : Nat
deriving DecidableEq, Repr

/-- One record of the session log `self.history`: the dicts appended by
`move_file` (`action: move`), `remove_file` (`action: delete`) and
`merge_pdf_files` (`action: merge_pdfs`). -/
inductive Op where
  | move (source destination : FsPath) (ts : Nat)
  | delete (source : FsPath) (ts : Nat)
  | mergePdfs (files : List FsPath) (output : FsPath) (ts : Nat)
deriving DecidableEq, Repr

/-- One session record of the persisted history store, as written by
`save_history`. -/
structure Session where
  session : Nat
  operations : List Op
  stats : Stats
deriving DecidableEq, Repr

/-- Symbolic file contents (see the module docstring). -/
inductive Content where
  | bytes (data : Nat)
  | store (sessions : List Session)
  | merged (parts : List FsPath) (ts : Nat)
deriving DecidableEq, Repr

/-- A regular file: path, content and whether the program can read it. -/
structure Entry where
  path : FsPath
  content : Content
  readable : Bool
deriving DecidableEq, Repr

/-- A filesystem: the list of its regular files. -/
abbrev FS := List Entry

/-- Path of every entry. -/
def pathsOf (fs : FS) : List FsPath := fs.map (·.path)

/-- A wellformed filesystem holds at most one entry per path. -/
def WFfs (fs : FS) : Prop := (pathsOf fs).Nodup

/-- `Path.exists()`. -/
def fsExists (fs : FS) (p : FsPath) : Bool := fs.any (·.path == p)

/-- The entry at `p`, if any. -/
def fsLookup (fs : FS) (p : FsPath) : Option Entry := fs.find? (·.path == p)

/-- Remove the entry at `p` (`Path.unlink`). -/
def fsErase (fs : FS) (p : FsPath) : FS := fs.filter (fun e => !(e.path == p))

/-- Create or overwrite the file at `p` (`open(p, "w")` / `json.dump`). -/
def fsWrite (fs : FS) (p : FsPath) (c : Content) : FS := fsErase fs p ++ [⟨p, c, true⟩]

/-- `shutil.move src dst`: relocate the file at `src` to `dst`, replacing
any file already at `dst` (POSIX `rename` semantics).  A no-op when `src`
does not exist (the program only calls it on existing paths). -/
def fsMove (fs : FS) (src dst : FsPath) : FS :=
  match fsLookup fs src with
  | some e => fsErase (fsErase fs src) dst ++ [⟨dst, e.content, e.readable⟩]
  | none => fs

/-- The files directly inside `dir`, in filesystem order
(`[f for f in dir.iterdir() if f.is_file()]`). -/
def listDir (fs : FS) (dir : FsPath) : List Entry := fs.filter (fun e => inDir dir e.path)

/-- The constructor arguments of `DownloadsCleaner.__init__` plus the
availability of the optional `pypdf` import. -/
structure Config where
  source_path : FsPath
  target_path : FsPath
  dry_run : Bool
  no_temp_clean : Bool
  no_duplicates : Bool
  merge_pdfs : Bool
  pypdf_available : Bool
deriving DecidableEq, Repr

/-- The mutable state of one `DownloadsCleaner` run: the filesystem it acts
on plus `self.stats`, `self.history`, `self.file_hashes` and the clock that
stands in for `datetime.now()`. -/
structure CleanerState where
  fs : FS
  stats : Stats
  history : List Op
  file_hashes : List (Content × List FsPath)
  clock : Nat
deriving DecidableEq, Repr

/-- The all-zero session used only as the (unreachable) default of
`getLastD` in `undo_cleanup`. -/
def emptySession : Session := ⟨0, [], ⟨0, 0, 0, 0, 0⟩⟩

/-- The state of a fresh `DownloadsCleaner` over filesystem `fs`. -/
def initState (fs : FS) : CleanerState :=
  { fs := fs, stats := ⟨0, 0, 0, 0, 0⟩, history := [], file_hashes := [], clock := 0 }

/-- `DownloadsCleaner.calculate_hash`: the digest of the file at `p`, or
`none` (Python: `""`) when the file cannot be read. -/
def calculate_hash (fs : FS) (p : FsPath) : Option Content :=
  match fsLookup fs p with
  | some e => if e.readable then some e.content else none
  | none => none

/-- The disambiguated candidate path `parent / (base + "_" + counter + ext)`
built inside `move_file`'s conflict loop. -/
def candidate (parent : FsPath) (base ext : String) (k : Nat) : FsPath :=
  parent ++ [base ++ "_" ++ Nat.repr k ++ ext]

/-- The `while destination.exists()` loop of `move_file`: try
`base_k.ext`, `base_(k+1).ext`, … until a free path is found.  `fuel`
bounds the search; `resolveDest` supplies enough fuel for the search to
succeed (see `resolveDest_not_exists`). -/
def resolveLoop (fs : FS) (parent : FsPath) (base ext : String) : Nat → Nat → FsPath
  | 0, k => candidate parent base ext k
  | fuel + 1, k =>
      if fsExists fs (candidate parent base ext k) then
        resolveLoop fs parent base ext fuel (k + 1)
      else candidate parent base ext k

/-- The conflict handling of `move_file`: the requested destination if it is
free, otherwise the first free `stem_k.suffix` sibling, counting from 1. -/
def resolveDest (fs : FS) (dest : FsPath) : FsPath :=
  if fsExists fs dest then
    resolveLoop fs dest.dropLast (pyStem (fileName dest)) (pySuffix (fileName dest))
      (fs.length + 1) 1
  else dest

/-- `DownloadsCleaner.move_file`: resolve the destination, relocate the file
unless `dry_run`, and log the operation with the path actually used.
The Python function returns `True` on this (exception-free) path; its
callers' "on success" counter increments are therefore unconditional in the
model. -/
def move_file (cfg : Config) (st : CleanerState) (source dest : FsPath) : CleanerState :=
  let d := resolveDest st.fs dest
  { st with
      fs := if cfg.dry_run then st.fs else fsMove st.fs source d,
      history := st.history ++ [Op.move source d st.clock],
      clock := st.clock + 1 }

/-- `DownloadsCleaner.remove_file`: unlink unless `dry_run`, and log. -/
def remove_file (cfg : Config) (st : CleanerState) (p : FsPath) : CleanerState :=
  { st with
      fs := if cfg.dry_run then st.fs else fsErase st.fs p,
      history := st.history ++ [Op.delete p st.clock],
      clock := st.clock + 1 }

/-- `DownloadsCleaner.clean_temp_files`. -/
def clean_temp_files (cfg : Config) (st : CleanerState) : CleanerState :=
  if cfg.no_temp_clean then st
  else
    (listDir st.fs cfg.source_path).foldl
      (fun s e =>
        if isTemp (fileName e.path) then
          let s := remove_file cfg s e.path
          { s with stats := { s.stats with temp_removed := s.stats.temp_removed + 1 } }
        else s)
      st

/-- The first loop of `find_duplicates`: append `p` to the bucket of digest
`h`, keeping Python's dict insertion order. -/
def addHash (m : List (Content × List FsPath)) (h : Content) (p : FsPath) :
    List (Content × List FsPath) :=
  match m with
  | [] => [(h, [p])]
  | (h₀, ps) :: rest =>
      if h₀ = h then (h₀, ps ++ [p]) :: rest else (h₀, ps) :: addHash rest h p

/-- Group the listed files by digest, skipping temp files and files whose
hash fails. -/
def buildHashes (fs : FS) (files : List Entry) (m : List (Content × List FsPath)) :
    List (Content × List FsPath) :=
  files.foldl
    (fun m e =>
      if isTemp (fileName e.path) then m
      else
        match calculate_hash fs e.path with
        | some h => addHash m h e.path
        | none => m)
    m

/-- The hashing stage of `find_duplicates` (its first loop): it only fills
`self.file_hashes`. -/
def hashStage (cfg : Config) (st : CleanerState) : CleanerState :=
  { st with file_hashes := buildHashes st.fs (listDir st.fs cfg.source_path) st.file_hashes }

/-- One iteration of `find_duplicates`' duplicate-moving loop: move the
surplus file into `target / Duplicates` and count it. -/
def dupStep (cfg : Config) (s : CleanerState) (dup : FsPath) : CleanerState :=
  let s1 := move_file cfg s dup (cfg.target_path ++ ["Duplicates", fileName dup])
  { s1 with stats := { s1.stats with duplicates_found := s1.stats.duplicates_found + 1 } }

/-- The second loop of `find_duplicates`: for every digest group with more
than one member, keep the first member and move the rest into
`target / Duplicates`. -/
def moveDuplicates (cfg : Config) (st : CleanerState) : CleanerState :=
  st.file_hashes.foldl
    (fun s hl => if hl.2.length > 1 then (hl.2.drop 1).foldl (dupStep cfg) s else s) st

/-- `DownloadsCleaner.find_duplicates`. -/
def find_duplicates (cfg : Config) (st : CleanerState) : CleanerState :=
  if cfg.no_duplicates then st else moveDuplicates cfg (hashStage cfg st)

/-- One iteration of `categorize_files`' loop: skip temp files, move the
rest under `target / <category>` and count them. -/
def catStep (cfg : Config) (s : CleanerState) (e : Entry) : CleanerState :=
  if isTemp (fileName e.path) then s
  else
    let s1 := move_file cfg s e.path
      (cfg.target_path ++ [get_category (fileName e.path), fileName e.path])
    { s1 with stats := { s1.stats with categorized := s1.stats.categorized + 1 } }

/-- `DownloadsCleaner.categorize_files`. -/
def categorize_files (cfg : Config) (st : CleanerState) : CleanerState :=
  (listDir st.fs cfg.source_path).foldl (catStep cfg) st

/-- Sort entries by name with a simple insertion sort (`sorted` on paths
inside one directory orders by name). -/
def insertByName (e : Entry) : List Entry → List Entry
  | [] => [e]
  | x :: xs =>
      if fileName e.path < fileName x.path then e :: x :: xs else x :: insertByName e xs

/-- See `insertByName`. -/
def sortByName (l : List Entry) : List Entry := l.foldr insertByName []

/-- `DownloadsCleaner.merge_pdf_files`.  The `pdf_folder.exists()` test is
modelled as the folder containing at least one file (the model has no empty
directories; in both cases the function then finds fewer than two PDFs and
returns). -/
def merge_pdf_files (cfg : Config) (st : CleanerState) : CleanerState :=
  if !cfg.merge_pdfs then st
  else if !cfg.pypdf_available then st
  else
    let pdf_folder := cfg.target_path ++ ["PDFs"]
    if (listDir st.fs pdf_folder).isEmpty then st
    else
      let pdf_files := sortByName
        ((listDir st.fs pdf_folder).filter (fun e => strEndsWith (fileName e.path) ".pdf"))
      if pdf_files.length < 2 then st
      else
        let output := pdf_folder ++ ["merged_" ++ Nat.repr st.clock ++ ".pdf"]
        let fsAfter :=
          if cfg.dry_run then st.fs
          else
            pdf_files.foldl (fun f e => fsErase f e.path)
              (fsWrite st.fs output (Content.merged (pdf_files.map (·.path)) st.clock))
        { st with
            fs := fsAfter,
            history := st.history ++ [Op.mergePdfs (pdf_files.map (·.path)) output st.clock],
            stats := { st.stats with pdfs_merged := pdf_files.length },
            clock := st.clock + 1 }

/-- `DownloadsCleaner.save_history`: skipped in preview mode or when the
session log is empty; appends the session to the loaded session list and
rewrites the store; a corrupt or unreadable store makes `json.load` raise,
which the function catches, leaving everything unchanged. -/
def save_history (cfg : Config) (st : CleanerState) : CleanerState :=
  if cfg.dry_run || st.history.isEmpty then st
  else
    let history_path := cfg.source_path ++ [HISTORY_FILE]
    let sess : Session := ⟨st.clock, st.history, st.stats⟩
    match fsLookup st.fs history_path with
    | some e =>
        if e.readable then
          match e.content with
          | Content.store existing =>
              { st with
                  fs := fsWrite st.fs history_path (Content.store (existing ++ [sess])),
                  clock := st.clock + 1 }
          | _ => st
        else st
    | none =>
        { st with
            fs := fsWrite st.fs history_path (Content.store [sess]),
            clock := st.clock + 1 }

/-- `DownloadsCleaner.run`: the four phases followed by history persistence
(the source-existence check and all printing are outside the model). -/
def runPipeline (cfg : Config) (st : CleanerState) : CleanerState :=
  save_history cfg (merge_pdf_files cfg (categorize_files cfg
    (find_duplicates cfg (clean_temp_files cfg st))))

/-- The `success_count` / `error_count` accumulator of `undo_cleanup`,
together with the filesystem being mutated. -/
structure UndoState where
  fs : FS
  success_count : Nat
  error_count : Nat
deriving DecidableEq, Repr

/-- One iteration of the `for op in reversed(operations)` loop of
`undo_cleanup`.  A `move` is reversed by a raw `shutil.move` from the
logged destination back to the logged source (counted as an error when the
logged destination no longer exists); a `delete` is always counted as an
error; any other action (`merge_pdfs`) matches neither branch and is
skipped. -/
def undoOp (dry_run : Bool) (u : UndoState) (op : Op) : UndoState :=
  match op with
  | Op.move src dst _ =>
      if dry_run then { u with success_count := u.success_count + 1 }
      else if fsExists u.fs dst then
        { u with fs := fsMove u.fs dst src, success_count := u.success_count + 1 }
      else { u with error_count := u.error_count + 1 }
  | Op.delete _ _ => { u with error_count := u.error_count + 1 }
  | Op.mergePdfs _ _ _ => u

/-- The outcome of a completed `undo_cleanup`. -/
structure UndoOk where
  fs : FS
  success_count : Nat
  error_count : Nat
deriving DecidableEq, Repr

/-- `undo_cleanup`: `none` models every `sys.exit(1)` path (missing history
file, unreadable or corrupt history, empty session list).  Otherwise the
last session's operations are replayed in reverse and, unless `dry_run`,
the popped session list is rewritten to the history file. -/
def undo_cleanup (source_path : FsPath) (dry_run : Bool) (fs : FS) : Option UndoOk :=
  let history_path := source_path ++ [HISTORY_FILE]
  match fsLookup fs history_path with
  | none => none
  | some e =>
      if !e.readable then none
      else
        match e.content with
        | Content.store sessions =>
            if sessions.isEmpty then none
            else
              let last := sessions.getLastD emptySession
              let u := last.operations.reverse.foldl (undoOp dry_run) ⟨fs, 0, 0⟩
              if dry_run then some ⟨u.fs, u.success_count, u.error_count⟩
              else
                some ⟨fsWrite u.fs history_path (Content.store sessions.dropLast),
                      u.success_count, u.error_count⟩
        | _ => none

/-- Number of `move` records in an operation list. -/
def countMoves (ops : List Op) : Nat :=
  (ops.filter (fun op => match op with | Op.move _ _ _ => true | _ => false)).length

/-- Number of `delete` records in an operation list. -/
def countDeletes (ops : List Op) : Nat :=
  (ops.filter (fun op => match op with | Op.delete _ _ => true | _ => false)).length

/-- Number of `merge_pdfs` records in an operation list. -/
def countMerges (ops : List Op) : Nat :=
  (ops.filter (fun op => match op with | Op.mergePdfs _ _ _ => true | _ => false)).length

/-- All paths collected in a digest map. -/
def bucketPaths (m : List (Content × List FsPath)) : List FsPath := (m.map (·.2)).flatten

/-- Total number of surplus group members (the files the duplicate phase
moves): one less than the size of each digest group. -/
def excessDuplicates (m : List (Content × List FsPath)) : Nat :=
  (m.map (fun hl => hl.2.length - 1)).sum

/-- The surplus members of every digest group, in processing order: each
group minus its first member (groups of size at most one contribute
nothing). -/
def surplus (m : List (Content × List FsPath)) : List FsPath :=
  (m.map (fun hl => hl.2.drop 1)).flatten

/-- Move each of `srcs` in turn to the same requested destination: the
scenario of the name-collision claim. -/
def moveSeq (cfg : Config) (st : CleanerState) (dest : FsPath) (srcs : List FsPath) :
    CleanerState :=
  srcs.foldl (fun s p => move_file cfg s p dest) st

/-- The session list stored at `p`, when the file there is a history store. -/
def storeAt (fs : FS) (p : FsPath) : Option (List Session) :=
  match fsLookup fs p with
  | some e => match e.content with | Content.store s => some s | _ => none
  | none => none

/-- Numeric value of a decimal digit character (used to invert `Nat.repr`). -/
def charVal (c : Char) : Nat := c.toNat - 48

/-- The decimal digit characters of `n`, most significant first: the
mathematical description of what `Nat.toDigits 10` produces. -/
def decDigits (n : Nat) : List Char :=
  if _h : n < 10 then [Nat.digitChar n]
  else decDigits (n / 10) ++ [Nat.digitChar (n % 10)]
termination_by n
decreasing_by exact Nat.div_lt_self (by omega) (by omega)

/-- The destinations of the `move` records in an operation list, in order. -/
def movedDests (ops : List Op) : List FsPath :=
  ops.filterMap (fun op => match op with | Op.move _ d _ => some d | _ => none)

/-- The destinations logged by a `moveSeq` run (the paths actually used). -/
def seqDests (cfg : Config) (st : CleanerState) (dest : FsPath) (srcs : List FsPath) :
    List FsPath :=
  movedDests ((moveSeq cfg st dest srcs).history.drop st.history.length)

/-! ### Concrete scenarios used by witnesses and counterexamples -/

/-- A downloads directory. -/
def srcDir : FsPath := ["downloads"]

/-- The default target `<source>/Cleaned`. -/
def tgtDir : FsPath := ["downloads", "Cleaned"]

/-- A default non-preview configuration over `srcDir`. -/
def cfgRun : Config := ⟨srcDir, tgtDir, false, false, false, false, false⟩

/-- The same configuration in preview (`--dry-run`) mode. -/
def cfgPreview : Config := ⟨srcDir, tgtDir, true, false, false, false, false⟩

/-- One categorizable file (the two-runs-then-undo scenario). -/
def fsOneTxt : FS := [⟨["downloads", "a.txt"], Content.bytes 7, true⟩]

/-- Scenario for the collision claim: the requested destination and two
same-named sources elsewhere, all over distinct contents. -/
def fsCollide : FS :=
  [⟨["downloads", "Cleaned", "x.txt"], Content.bytes 0, true⟩,
   ⟨["downloads", "x.txt"], Content.bytes 1, true⟩,
   ⟨["downloads", "sub", "x.txt"], Content.bytes 2, true⟩]

/-- The two sources of `fsCollide` to be moved to the same destination. -/
def srcsCollide : List FsPath := [["downloads", "x.txt"], ["downloads", "sub", "x.txt"]]

/-- Scenario for undo overwriting: a logged move whose source path has
since been re-occupied by a new file with different content. -/
def fsUndoClobber : FS :=
  [⟨["downloads", HISTORY_FILE],
    Content.store [⟨0,
      [Op.move ["downloads", "a.txt"] ["downloads", "Cleaned", "Documents", "a.txt"] 0],
      ⟨1, 0, 0, 0, 0⟩⟩], true⟩,
   ⟨["downloads", "a.txt"], Content.bytes 99, true⟩,
   ⟨["downloads", "Cleaned", "Documents", "a.txt"], Content.bytes 1, true⟩]

/-- Three source files, two of them byte-identical, plus a distinct one. -/
def fsDups : FS :=
  [⟨["downloads", "a.jpg"], Content.bytes 5, true⟩,
   ⟨["downloads", "b.jpg"], Content.bytes 5, true⟩,
   ⟨["downloads", "c.jpg"], Content.bytes 5, true⟩,
   ⟨["downloads", "d.jpg"], Content.bytes 6, true⟩]

/-- A readable duplicate pair with an unreadable file between them. -/
def fsUnreadable : FS :=
  [⟨["downloads", "x.bin"], Content.bytes 1, true⟩,
   ⟨["downloads", "y.bin"], Content.bytes 2, false⟩,
   ⟨["downloads", "z.bin"], Content.bytes 1, true⟩]

/-- Two sessions; the last holds one move and one delete. -/
def mixedSessions : List Session :=
  [⟨9, [Op.delete ["downloads", "junk.tmp"] 0], ⟨0, 1, 0, 0, 0⟩⟩,
   ⟨10,
    [Op.move ["downloads", "a.txt"] ["downloads", "Cleaned", "Documents", "a.txt"] 1,
     Op.delete ["downloads", "p.part"] 2],
    ⟨1, 1, 0, 0, 0⟩⟩]

/-- A history store holding `mixedSessions`, with the logged move
destination still present. -/
def fsUndoMixed : FS :=
  [⟨["downloads", HISTORY_FILE], Content.store mixedSessions, true⟩,
   ⟨["downloads", "Cleaned", "Documents", "a.txt"], Content.bytes 3, true⟩]

/-- One session holding only a `merge_pdfs` record. -/
def mergeSessions : List Session :=
  [⟨4,
    [Op.mergePdfs
      [["downloads", "Cleaned", "PDFs", "a.pdf"], ["downloads", "Cleaned", "PDFs", "b.pdf"]]
      ["downloads", "Cleaned", "PDFs", "merged_3.pdf"] 3],
    ⟨0, 0, 0, 2, 0⟩⟩]

/-- A history store holding `mergeSessions`. -/
def fsUndoMerge : FS :=
  [⟨["downloads", HISTORY_FILE], Content.store mergeSessions, true⟩]

/-- A source directory holding a history store from an earlier run next to
an ordinary file. -/
def fsWithHistory : FS :=
  [⟨["downloads", HISTORY_FILE],
    Content.store [⟨1, [Op.delete ["downloads", "old.tmp"] 0], ⟨0, 1, 0, 0, 0⟩⟩], true⟩,
   ⟨["downloads", "a.txt"], Content.bytes 7, true⟩]

/-! ### Injectivity of `Nat.repr`

The conflict loop of `move_file` terminates because the candidate names
`base_1.ext`, `base_2.ext`, … are pairwise distinct; that reduces to the
injectivity of decimal rendering, proved here by exhibiting a parse as a
left inverse. -/

theorem charVal_digitChar : ∀ d : Nat, d < 10 → charVal (Nat.digitChar d) = d := by decide

theorem decDigits_foldl (n : Nat) : ∀ a : Nat,
    (decDigits n).foldl (fun x c => x * 10 + charVal c) a =
      a * 10 ^ (decDigits n).length + n := by
  induction n using Nat.strong_induction_on with
  | _ n ih =>
    intro a
    rw [decDigits]
    by_cases h : n < 10
    · simp [h, charVal_digitChar n h]
    · have h10 : n / 10 < n := Nat.div_lt_self (by omega) (by omega)
      simp only [h, dif_neg, not_false_iff, List.foldl_append, List.length_append,
        List.foldl_cons, List.foldl_nil, List.length_cons, List.length_nil]
      rw [ih (n / 10) h10 a]
      rw [charVal_digitChar (n % 10) (Nat.mod_lt n (by omega))]
      rw [pow_succ]
      have := Nat.div_add_mod n 10
      ring_nf
      omega

theorem decDigits_injective : Function.Injective decDigits := by
  intro m n h
  have hm := decDigits_foldl m 0
  have hn := decDigits_foldl n 0
  rw [h] at hm
  rw [hm] at hn
  simpa using hn

theorem data_mk_inj {a b : List Char} (h : String.mk a = String.mk b) : a = b :=
  congrArg String.data h

theorem strData_inj {a b : String} (h : a.data = b.data) : a = b := by
  cases a; cases b; exact congrArg String.mk h

theorem toDigitsCore_accumulate (fuel : Nat) : ∀ (n : Nat) (ds : List Char),
    Nat.toDigitsCore 10 fuel n ds = Nat.toDigitsCore 10 fuel n [] ++ ds := by
  induction fuel with
  | zero => intro n ds; rfl
  | succ f ih =>
    intro n ds
    simp only [Nat.toDigitsCore]
    by_cases h : n / 10 = 0
    · simp [h]
    · simp only [h, if_neg, not_false_iff]
      rw [ih (n / 10) (Nat.digitChar (n % 10) :: ds), ih (n / 10) [Nat.digitChar (n % 10)],
        List.append_assoc]
      rfl

theorem toDigitsCore_eq_decDigits : ∀ fuel n, n < fuel →
    Nat.toDigitsCore 10 fuel n [] = decDigits n := by
  intro fuel
  induction fuel with
  | zero => omega
  | succ f ih =>
    intro n hn
    simp only [Nat.toDigitsCore]
    by_cases h : n / 10 = 0
    · have h10 : n < 10 := by omega
      rw [decDigits]
      simp [h, h10, Nat.mod_eq_of_lt h10]
    · have hge : ¬ n < 10 := fun hlt => h (Nat.div_eq_of_lt hlt)
      have hlt : n / 10 < n := Nat.div_lt_self (by omega) (by omega)
      simp only [h, if_neg, not_false_iff]
      rw [toDigitsCore_accumulate, ih (n / 10) (by omega)]
      conv_rhs => rw [decDigits]
      simp [hge]

theorem repr_eq_decDigits (n : Nat) : Nat.repr n = (decDigits n).asString := by
  show (Nat.toDigitsCore 10 (n + 1) n []).asString = (decDigits n).asString
  rw [toDigitsCore_eq_decDigits (n + 1) n (Nat.lt_succ_self n)]

theorem repr_injective : Function.Injective Nat.repr := by
  intro m n h
  rw [repr_eq_decDigits, repr_eq_decDigits] at h
  exact decDigits_injective (data_mk_inj h)

theorem candidate_injective (parent : FsPath) (base ext : String) :
    Function.Injective (candidate parent base ext) := by
  intro k₁ k₂ h
  unfold candidate at h
  have h1 : base ++ "_" ++ Nat.repr k₁ ++ ext = base ++ "_" ++ Nat.repr k₂ ++ ext := by
    simpa using List.append_cancel_left h
  have h2 := congrArg String.data h1
  simp only [String.data_append, List.append_assoc] at h2
  have h3 := List.append_cancel_left h2
  have h4 := List.append_cancel_left h3
  have h5 := List.append_cancel_right h4
  exact repr_injective (strData_inj h5)

/-! ### Filesystem lemmas -/

theorem fsLookup_cons (e : Entry) (t : FS) (p : FsPath) :
    fsLookup (e :: t) p = if e.path = p then some e else fsLookup t p := by
  by_cases h : e.path = p
  · simp [fsLookup, List.find?_cons_of_pos, h]
  · simp [fsLookup, List.find?_cons_of_neg, h]

theorem fsExists_iff {fs : FS} {p : FsPath} : fsExists fs p = true ↔ ∃ e ∈ fs, e.path = p := by
  simp [fsExists, List.any_eq_true]

theorem fsExists_eq_isSome (fs : FS) (p : FsPath) : fsExists fs p = (fsLookup fs p).isSome := by
  induction fs with
  | nil => rfl
  | cons e t ih =>
    rw [fsLookup_cons]
    by_cases h : e.path = p
    · simp [fsExists, h]
    · simp only [fsExists, List.any_cons] at *
      simp [h, ih]

theorem mem_of_fsLookup {fs : FS} {p : FsPath} {e : Entry} (h : fsLookup fs p = some e) :
    e ∈ fs ∧ e.path = p :=
  ⟨List.mem_of_find?_eq_some h, by simpa using List.find?_some h⟩

theorem fsLookup_of_mem {fs : FS} {e : Entry} (hwf : WFfs fs) (he : e ∈ fs) :
    fsLookup fs e.path = some e := by
  induction fs with
  | nil => cases he
  | cons x t ih =>
    have hwf2 : x.path ∉ pathsOf t ∧ WFfs t := by simpa [WFfs, pathsOf] using hwf
    rw [fsLookup_cons]
    rcases List.mem_cons.mp he with he | he
    · simp [he]
    · have hx : x.path ≠ e.path := by
        intro hx
        apply hwf2.1
        rw [hx]
        exact List.mem_map_of_mem (·.path) he
      simp [hx, ih hwf2.2 he]

theorem fsLookup_erase (fs : FS) (p q : FsPath) :
    fsLookup (fsErase fs p) q = if q = p then none else fsLookup fs q := by
  induction fs with
  | nil => by_cases h : q = p <;> simp [fsErase, fsLookup, h]
  | cons e t ih =>
    simp only [fsErase, List.filter_cons] at ih ⊢
    by_cases hep : e.path = p
    · have hb : (!(e.path == p)) = false := by simp [hep]
      rw [hb, if_neg (by simp)]
      by_cases hqp : q = p
      · simpa [hqp] using ih
      · have heq : e.path ≠ q := fun h => hqp (h.symm.trans hep)
        rw [ih, if_neg hqp, if_neg hqp, fsLookup_cons, if_neg heq]
    · have hb : (!(e.path == p)) = true := by simp [hep]
      rw [hb, if_pos rfl, fsLookup_cons]
      by_cases heq : e.path = q
      · have hqp : ¬ q = p := fun h => hep (heq.trans h)
        rw [if_pos heq, if_neg hqp, fsLookup_cons, if_pos heq]
      · rw [if_neg heq, ih]
        by_cases hqp : q = p
        · simp [hqp]
        · rw [if_neg hqp, if_neg hqp, fsLookup_cons, if_neg heq]

theorem fsLookup_append (a b : FS) (q : FsPath) :
    fsLookup (a ++ b) q = (fsLookup a q).or (fsLookup b q) :=
  List.find?_append

theorem fsLookup_singleton (e : Entry) (q : FsPath) :
    fsLookup [e] q = if e.path = q then some e else none := by
  by_cases h : e.path = q
  · simp [fsLookup, List.find?_cons_of_pos, h]
  · rw [show fsLookup [e] q = fsLookup (e :: []) q from rfl, fsLookup_cons, if_neg h, if_neg h]
    rfl

theorem fsLookup_write (fs : FS) (p : FsPath) (c : Content) (q : FsPath) :
    fsLookup (fsWrite fs p c) q = if q = p then some ⟨p, c, true⟩ else fsLookup fs q := by
  unfold fsWrite
  rw [fsLookup_append, fsLookup_erase, fsLookup_singleton]
  by_cases h : q = p
  · simp [h]
  · rw [if_neg h, if_neg h, if_neg (Ne.symm h), Option.or_none]

theorem fsLookup_move (fs : FS) (src dst q : FsPath) :
    fsLookup (fsMove fs src dst) q =
      match fsLookup fs src with
      | none => fsLookup fs q
      | some e =>
          if q = dst then some ⟨dst, e.content, e.readable⟩
          else if q = src then none
          else fsLookup fs q := by
  rcases hsrc : fsLookup fs src with _ | e
  · simp [fsMove, hsrc]
  · simp only [fsMove, hsrc]
    rw [fsLookup_append, fsLookup_erase, fsLookup_erase, fsLookup_singleton]
    by_cases hd : q = dst
    · simp [hd]
    · rw [if_neg hd, if_neg (Ne.symm hd), Option.or_none]
      by_cases hs : q = src
      · have hsd : ¬ src = dst := fun h => hd (hs.trans h)
        simp [hd, hs, hsd]
      · simp [hd, hs]

theorem fsMove_of_lookup_none {fs : FS} {src : FsPath} (dst : FsPath)
    (h : fsLookup fs src = none) : fsMove fs src dst = fs := by
  simp [fsMove, h]

theorem fsErase_length_le (fs : FS) (p : FsPath) : (fsErase fs p).length ≤ fs.length :=
  List.length_filter_le _ _

/-! ### Wellformedness preservation -/

theorem WFfs_erase {fs : FS} (hwf : WFfs fs) (p : FsPath) : WFfs (fsErase fs p) := by
  unfold WFfs pathsOf at *
  exact ((List.filter_sublist fs).map (·.path)).nodup hwf

theorem not_mem_pathsOf_erase (fs : FS) (p : FsPath) : p ∉ pathsOf (fsErase fs p) := by
  intro h
  obtain ⟨e, he, hp⟩ := List.mem_map.mp h
  have := (List.mem_filter.mp he).2
  simp [hp] at this

theorem WFfs_write {fs : FS} (hwf : WFfs fs) (p : FsPath) (c : Content) :
    WFfs (fsWrite fs p c) := by
  unfold WFfs fsWrite
  have h1 : WFfs (fsErase fs p) := WFfs_erase hwf p
  unfold WFfs at h1
  simp only [pathsOf, List.map_append, List.map_cons, List.map_nil]
  rw [List.nodup_append]
  refine ⟨h1, List.nodup_singleton _, ?_⟩
  intro q hq
  simp only [List.mem_singleton]
  intro hqp
  exact not_mem_pathsOf_erase fs p (hqp ▸ hq)

theorem WFfs_move {fs : FS} (hwf : WFfs fs) (src dst : FsPath) : WFfs (fsMove fs src dst) := by
  rcases hsrc : fsLookup fs src with _ | e
  · rw [fsMove_of_lookup_none dst hsrc]; exact hwf
  · simp only [fsMove, hsrc]
    unfold WFfs
    simp only [pathsOf, List.map_append, List.map_cons, List.map_nil]
    rw [List.nodup_append]
    refine ⟨WFfs_erase (WFfs_erase hwf src) dst, List.nodup_singleton _, ?_⟩
    intro q hq
    simp only [List.mem_singleton]
    intro hqd
    exact not_mem_pathsOf_erase (fsErase fs src) dst (hqd ▸ hq)

theorem fsExists_false_of_not_mem {fs : FS} {p : FsPath} (h : p ∉ pathsOf fs) :
    fsExists fs p = false := by
  rw [← Bool.not_eq_true, fsExists_iff]
  intro ⟨e, he, hp⟩
  exact h (hp ▸ List.mem_map_of_mem (·.path) he)

theorem not_mem_of_fsExists_false {fs : FS} {p : FsPath} (h : fsExists fs p = false) :
    p ∉ pathsOf fs := by
  intro hmem
  obtain ⟨e, he, hp⟩ := List.mem_map.mp hmem
  have : fsExists fs p = true := fsExists_iff.mpr ⟨e, he, hp⟩
  rw [h] at this
  cases this

/-! ### The conflict loop of `move_file` -/

theorem resolveLoop_free (fs : FS) (parent : FsPath) (base ext : String) : ∀ fuel k,
    (∃ j, k ≤ j ∧ j < k + fuel ∧ fsExists fs (candidate parent base ext j) = false) →
    fsExists fs (resolveLoop fs parent base ext fuel k) = false := by
  intro fuel
  induction fuel with
  | zero =>
    intro k h
    obtain ⟨j, h1, h2, _⟩ := h
    omega
  | succ f ih =>
    intro k h
    obtain ⟨j, h1, h2, h3⟩ := h
    rw [resolveLoop]
    by_cases hk : fsExists fs (candidate parent base ext k) = true
    · rw [if_pos hk]
      apply ih
      have hjk : j ≠ k := by
        intro hjk
        rw [hjk] at h3
        rw [h3] at hk
        cases hk
      exact ⟨j, by omega, by omega, h3⟩
    · rw [if_neg hk]
      exact Bool.eq_false_iff.mpr hk

theorem exists_free_candidate (fs : FS) (parent : FsPath) (base ext : String) :
    ∃ j, 1 ≤ j ∧ j < fs.length + 2 ∧ fsExists fs (candidate parent base ext j) = false := by
  by_contra hall
  push_neg at hall
  have hmap : ∀ j ∈ Finset.Icc 1 (fs.length + 1),
      candidate parent base ext j ∈ (pathsOf fs).toFinset := by
    intro j hj
    rw [Finset.mem_Icc] at hj
    have h1 := hall j hj.1 (by omega)
    have h2 : fsExists fs (candidate parent base ext j) = true := by
      cases hb : fsExists fs (candidate parent base ext j)
      · exact absurd hb h1
      · rfl
    obtain ⟨e, he, hp⟩ := fsExists_iff.mp h2
    rw [List.mem_toFinset]
    rw [← hp]
    exact List.mem_map_of_mem (·.path) he
  have hinj : Set.InjOn (candidate parent base ext) (Finset.Icc 1 (fs.length + 1)) :=
    fun a _ b _ h => candidate_injective parent base ext h
  have hcard := Finset.card_le_card_of_injOn _ hmap hinj
  have h1 : (Finset.Icc 1 (fs.length + 1)).card = fs.length + 1 := by
    rw [Nat.card_Icc]
    omega
  have h2 : (pathsOf fs).toFinset.card ≤ fs.length := by
    calc (pathsOf fs).toFinset.card ≤ (pathsOf fs).length := (pathsOf fs).toFinset_card_le
    _ = fs.length := List.length_map fs (·.path)
  omega

theorem resolveDest_not_exists (fs : FS) (dest : FsPath) :
    fsExists fs (resolveDest fs dest) = false := by
  unfold resolveDest
  by_cases h : fsExists fs dest = true
  · rw [if_pos h]
    apply resolveLoop_free
    obtain ⟨j, h1, h2, h3⟩ :=
      exists_free_candidate fs dest.dropLast (pyStem (fileName dest)) (pySuffix (fileName dest))
    exact ⟨j, h1, by omega, h3⟩
  · rw [if_neg h]
    exact Bool.eq_false_iff.mpr h

theorem resolveLoop_is_candidate (fs : FS) (parent : FsPath) (base ext : String) :
    ∀ fuel k, ∃ j, resolveLoop fs parent base ext fuel k = candidate parent base ext j := by
  intro fuel
  induction fuel with
  | zero => intro k; exact ⟨k, rfl⟩
  | succ f ih =>
    intro k
    rw [resolveLoop]
    by_cases hk : fsExists fs (candidate parent base ext k) = true
    · rw [if_pos hk]; exact ih (k + 1)
    · rw [if_neg hk]; exact ⟨k, rfl⟩

theorem resolveDest_dropLast (fs : FS) (dest : FsPath) :
    (resolveDest fs dest).dropLast = dest.dropLast := by
  unfold resolveDest
  by_cases h : fsExists fs dest = true
  · rw [if_pos h]
    obtain ⟨j, hj⟩ := resolveLoop_is_candidate fs dest.dropLast
      (pyStem (fileName dest)) (pySuffix (fileName dest)) (fs.length + 1) 1
    rw [hj]
    unfold candidate
    rw [List.dropLast_concat]
  · rw [if_neg h]

theorem resolveDest_ne_nil (fs : FS) (dir : FsPath) (name : String) :
    resolveDest fs (dir ++ [name]) ≠ [] := by
  unfold resolveDest
  by_cases h : fsExists fs (dir ++ [name]) = true
  · rw [if_pos h]
    obtain ⟨j, hj⟩ := resolveLoop_is_candidate fs (dir ++ [name]).dropLast
      (pyStem (fileName (dir ++ [name]))) (pySuffix (fileName (dir ++ [name])))
      (fs.length + 1) 1
    rw [hj]
    unfold candidate
    simp
  · rw [if_neg h]
    simp

theorem inDir_resolveDest (fs : FS) (dir : FsPath) (name : String) :
    inDir dir (resolveDest fs (dir ++ [name])) = true := by
  unfold inDir
  rw [resolveDest_dropLast, List.dropLast_concat]
  have hne := resolveDest_ne_nil fs dir name
  simp [List.isEmpty_iff, hne]

/-! ### `move_file` and `remove_file` -/

theorem move_file_fs {cfg : Config} (st : CleanerState) (src dest : FsPath)
    (h : cfg.dry_run = false) :
    (move_file cfg st src dest).fs = fsMove st.fs src (resolveDest st.fs dest) := by
  simp [move_file, h]

theorem move_file_fs_dry {cfg : Config} (st : CleanerState) (src dest : FsPath)
    (h : cfg.dry_run = true) : (move_file cfg st src dest).fs = st.fs := by
  simp [move_file, h]

theorem move_file_stats (cfg : Config) (st : CleanerState) (src dest : FsPath) :
    (move_file cfg st src dest).stats = st.stats := rfl

theorem move_file_file_hashes (cfg : Config) (st : CleanerState) (src dest : FsPath) :
    (move_file cfg st src dest).file_hashes = st.file_hashes := rfl

theorem move_file_history (cfg : Config) (st : CleanerState) (src dest : FsPath) :
    (move_file cfg st src dest).history =
      st.history ++ [Op.move src (resolveDest st.fs dest) st.clock] := rfl

theorem remove_file_fs {cfg : Config} (st : CleanerState) (p : FsPath)
    (h : cfg.dry_run = false) : (remove_file cfg st p).fs = fsErase st.fs p := by
  simp [remove_file, h]

theorem remove_file_fs_dry {cfg : Config} (st : CleanerState) (p : FsPath)
    (h : cfg.dry_run = true) : (remove_file cfg st p).fs = st.fs := by
  simp [remove_file, h]

theorem remove_file_stats (cfg : Config) (st : CleanerState) (p : FsPath) :
    (remove_file cfg st p).stats = st.stats := rfl

theorem remove_file_history (cfg : Config) (st : CleanerState) (p : FsPath) :
    (remove_file cfg st p).history = st.history ++ [Op.delete p st.clock] := rfl

/-- The frame property of a single non-preview `move_file`: any path other
than the moved source that exists beforehand keeps its entry (the resolved
destination is fresh, so nothing is overwritten). -/
theorem move_file_lookup_other {cfg : Config} {st : CleanerState} {src dest q : FsPath}
    (hdry : cfg.dry_run = false) (hq : q ≠ src) (hex : fsExists st.fs q = true) :
    fsLookup (move_file cfg st src dest).fs q = fsLookup st.fs q := by
  rw [move_file_fs st src dest hdry, fsLookup_move]
  have hfree := resolveDest_not_exists st.fs dest
  have hqd : q ≠ resolveDest st.fs dest := by
    intro h
    rw [← h] at hfree
    rw [hex] at hfree
    cases hfree
  rcases hsrc : fsLookup st.fs src with _ | e
  · rfl
  · simp [hqd, hq]

/-- After a non-preview `move_file` of an existing source, the resolved
destination holds the moved content. -/
theorem move_file_lookup_dest {cfg : Config} {st : CleanerState} {src dest : FsPath} {e : Entry}
    (hdry : cfg.dry_run = false) (hsrc : fsLookup st.fs src = some e) :
    fsLookup (move_file cfg st src dest).fs (resolveDest st.fs dest) =
      some ⟨resolveDest st.fs dest, e.content, e.readable⟩ := by
  rw [move_file_fs st src dest hdry, fsLookup_move, hsrc]
  simp

/-- After a non-preview `move_file`, the source path is gone (it cannot
equal the resolved destination, which was fresh). -/
theorem move_file_lookup_src {cfg : Config} {st : CleanerState} {src dest : FsPath} {e : Entry}
    (hdry : cfg.dry_run = false) (hsrc : fsLookup st.fs src = some e) :
    fsLookup (move_file cfg st src dest).fs src = none := by
  rw [move_file_fs st src dest hdry, fsLookup_move, hsrc]
  have hfree := resolveDest_not_exists st.fs dest
  have hex : fsExists st.fs src = true := by
    rw [fsExists_eq_isSome, hsrc]
    rfl
  have hsd : src ≠ resolveDest st.fs dest := by
    intro h
    rw [← h] at hfree
    rw [hex] at hfree
    cases hfree
  simp [hsd]

theorem move_file_wf {cfg : Config} {st : CleanerState} (src dest : FsPath)
    (hwf : WFfs st.fs) : WFfs (move_file cfg st src dest).fs := by
  by_cases h : cfg.dry_run
  · rw [move_file_fs_dry st src dest h]; exact hwf
  · rw [move_file_fs st src dest (Bool.eq_false_iff.mpr h)]
    exact WFfs_move hwf _ _

theorem fsExists_of_lookup_some {fs : FS} {q : FsPath} {e : Entry}
    (h : fsLookup fs q = some e) : fsExists fs q = true := by
  rw [fsExists_eq_isSome, h]
  rfl

theorem lookup_some_of_fsExists {fs : FS} {q : FsPath} (h : fsExists fs q = true) :
    ∃ e, fsLookup fs q = some e := by
  rw [fsExists_eq_isSome] at h
  exact Option.isSome_iff_exists.mp h

/-! ### Sequences of conflicting moves -/

theorem moveSeq_history_shape (cfg : Config) (dest : FsPath) :
    ∀ (srcs : List FsPath) (st : CleanerState),
    ∃ ops, (moveSeq cfg st dest srcs).history = st.history ++ ops := by
  intro srcs
  induction srcs with
  | nil => intro st; exact ⟨[], by simp [moveSeq]⟩
  | cons s rest ih =>
    intro st
    obtain ⟨ops, hops⟩ := ih (move_file cfg st s dest)
    refine ⟨Op.move s (resolveDest st.fs dest) st.clock :: ops, ?_⟩
    show (moveSeq cfg (move_file cfg st s dest) dest rest).history = _
    rw [hops, move_file_history]
    simp

theorem seqDests_nil (cfg : Config) (st : CleanerState) (dest : FsPath) :
    seqDests cfg st dest [] = [] := by
  unfold seqDests moveSeq
  simp [List.drop_length, movedDests]

theorem seqDests_cons (cfg : Config) (st : CleanerState) (dest : FsPath) (s : FsPath)
    (rest : List FsPath) :
    seqDests cfg st dest (s :: rest) =
      resolveDest st.fs dest :: seqDests cfg (move_file cfg st s dest) dest rest := by
  unfold seqDests
  obtain ⟨ops, hops⟩ := moveSeq_history_shape cfg dest rest (move_file cfg st s dest)
  have h1 : (moveSeq cfg st dest (s :: rest)).history
      = (move_file cfg st s dest).history ++ ops := by
    show (moveSeq cfg (move_file cfg st s dest) dest rest).history = _
    exact hops
  have h2 : (moveSeq cfg st dest (s :: rest)).history.drop st.history.length
      = Op.move s (resolveDest st.fs dest) st.clock :: ops := by
    rw [h1, move_file_history, List.append_assoc, List.drop_left]
    rfl
  have h3 : (moveSeq cfg (move_file cfg st s dest) dest rest).history.drop
      (move_file cfg st s dest).history.length = ops := by
    rw [hops, List.drop_left]
  rw [h2, h3]
  simp [movedDests]

/-- C2: in non-preview mode, `move_file` never overwrites an existing file:
a conflicting destination is disambiguated with an incrementing numeric
suffix until a free path is found, and the move is performed there.
Consequently, moving `N` (distinct, out-of-folder) files against the same
requested destination yields `N` pairwise distinct logged destinations in
the destination folder, all fresh with respect to the initial filesystem,
all present afterwards, while every pre-existing file at any other path is
left untouched. -/
theorem C2_collision_resolution_injective {cfg : Config} (dest : FsPath) :
    ∀ (srcs : List FsPath) (st : CleanerState),
    cfg.dry_run = false →
    srcs.Nodup →
    (∀ s ∈ srcs, fsExists st.fs s = true) →
    (∀ s ∈ srcs, s.dropLast ≠ dest.dropLast) →
    (seqDests cfg st dest srcs).length = srcs.length ∧
    (seqDests cfg st dest srcs).Nodup ∧
    (∀ d ∈ seqDests cfg st dest srcs, fsExists st.fs d = false) ∧
    (∀ d ∈ seqDests cfg st dest srcs, fsExists (moveSeq cfg st dest srcs).fs d = true) ∧
    (∀ d ∈ seqDests cfg st dest srcs, d.dropLast = dest.dropLast) ∧
    (∀ q, q ∉ srcs → fsExists st.fs q = true →
      fsLookup (moveSeq cfg st dest srcs).fs q = fsLookup st.fs q) := by
  intro srcs
  induction srcs with
  | nil =>
    intro st _ _ _ _
    rw [seqDests_nil]
    refine ⟨rfl, List.nodup_nil, ?_, ?_, ?_, ?_⟩
    · intro d hd; cases hd
    · intro d hd; cases hd
    · intro d hd; cases hd
    · intro q _ _; rfl
  | cons s rest ih =>
    intro st hdry hnodup hex hdir
    have hs : fsExists st.fs s = true := hex s (List.mem_cons_self s rest)
    obtain ⟨e, he⟩ := lookup_some_of_fsExists hs
    have hd0free : fsExists st.fs (resolveDest st.fs dest) = false :=
      resolveDest_not_exists st.fs dest
    have hd0drop : (resolveDest st.fs dest).dropLast = dest.dropLast :=
      resolveDest_dropLast st.fs dest
    have hnodup2 : rest.Nodup := (List.nodup_cons.mp hnodup).2
    have hsnot : s ∉ rest := (List.nodup_cons.mp hnodup).1
    have hex1 : ∀ x ∈ rest, fsExists (move_file cfg st s dest).fs x = true := by
      intro x hx
      have hxs : x ≠ s := fun h => hsnot (h ▸ hx)
      have hxe : fsExists st.fs x = true := hex x (List.mem_cons_of_mem _ hx)
      rw [fsExists_eq_isSome, move_file_lookup_other hdry hxs hxe, ← fsExists_eq_isSome]
      exact hxe
    have hdir2 : ∀ x ∈ rest, x.dropLast ≠ dest.dropLast :=
      fun x hx => hdir x (List.mem_cons_of_mem _ hx)
    obtain ⟨hlen, hnd, hfresh, hfin, hdrop, hframe⟩ :=
      ih (move_file cfg st s dest) hdry hnodup2 hex1 hdir2
    have hd0look : fsLookup (move_file cfg st s dest).fs (resolveDest st.fs dest) =
        some ⟨resolveDest st.fs dest, e.content, e.readable⟩ :=
      move_file_lookup_dest hdry he
    have hd0ex1 : fsExists (move_file cfg st s dest).fs (resolveDest st.fs dest) = true :=
      fsExists_of_lookup_some hd0look
    have hd0rest : resolveDest st.fs dest ∉ rest := by
      intro hmem
      exact hdir2 _ hmem hd0drop
    have hfresh0 : ∀ d ∈ seqDests cfg (move_file cfg st s dest) dest rest,
        fsExists st.fs d = false := by
      intro d hd
      cases hb : fsExists st.fs d
      · rfl
      · exfalso
        have hds : d ≠ s := by
          intro hds
          exact hdir s (List.mem_cons_self s rest) (hds ▸ hdrop d hd)
        have := @move_file_lookup_other cfg st s dest d hdry hds hb
        have hex1d : fsExists (move_file cfg st s dest).fs d = true := by
          rw [fsExists_eq_isSome, this, ← fsExists_eq_isSome]
          exact hb
        rw [hfresh d hd] at hex1d
        cases hex1d
    have hmseq : moveSeq cfg st dest (s :: rest) =
        moveSeq cfg (move_file cfg st s dest) dest rest := rfl
    rw [seqDests_cons, hmseq]
    refine ⟨by simpa using hlen, ?_, ?_, ?_, ?_, ?_⟩
    · rw [List.nodup_cons]
      refine ⟨?_, hnd⟩
      intro hmem
      have := hfresh _ hmem
      rw [hd0ex1] at this
      cases this
    · intro d hd
      rcases List.mem_cons.mp hd with hd | hd
      · rw [hd]; exact hd0free
      · exact hfresh0 d hd
    · intro d hd
      rcases List.mem_cons.mp hd with hd | hd
      · rw [hd]
        rw [fsExists_eq_isSome, hframe _ hd0rest hd0ex1, ← fsExists_eq_isSome]
        exact hd0ex1
      · exact hfin d hd
    · intro d hd
      rcases List.mem_cons.mp hd with hd | hd
      · rw [hd]; exact hd0drop
      · exact hdrop d hd
    · intro q hq hqe
      have hqs : q ≠ s := fun h => hq (h ▸ List.mem_cons_self s rest)
      have hqrest : q ∉ rest := fun h => hq (List.mem_cons_of_mem _ h)
      have hstep := @move_file_lookup_other cfg st s dest q hdry hqs hqe
      have hqe1 : fsExists (move_file cfg st s dest).fs q = true := by
        rw [fsExists_eq_isSome, hstep, ← fsExists_eq_isSome]
        exact hqe
      rw [hframe q hqrest hqe1, hstep]

/-- Witness for C2: two files named `x.txt`, moved onto an occupied
destination `downloads/Cleaned/x.txt`, land on two fresh distinct paths. -/
theorem C2_collision_resolution_injective_witness :
    (cfgRun.dry_run = false ∧ srcsCollide.Nodup ∧
      (∀ s ∈ srcsCollide, fsExists (initState fsCollide).fs s = true) ∧
      (∀ s ∈ srcsCollide, s.dropLast ≠ (["downloads", "Cleaned", "x.txt"] : FsPath).dropLast)) ∧
    ((seqDests cfgRun (initState fsCollide) ["downloads", "Cleaned", "x.txt"] srcsCollide).length
        = srcsCollide.length ∧
      (seqDests cfgRun (initState fsCollide) ["downloads", "Cleaned", "x.txt"] srcsCollide).Nodup ∧
      (∀ d ∈ seqDests cfgRun (initState fsCollide) ["downloads", "Cleaned", "x.txt"] srcsCollide,
        fsExists (initState fsCollide).fs d = false) ∧
      (∀ d ∈ seqDests cfgRun (initState fsCollide) ["downloads", "Cleaned", "x.txt"] srcsCollide,
        fsExists (moveSeq cfgRun (initState fsCollide) ["downloads", "Cleaned", "x.txt"]
          srcsCollide).fs d = true) ∧
      (∀ d ∈ seqDests cfgRun (initState fsCollide) ["downloads", "Cleaned", "x.txt"] srcsCollide,
        d.dropLast = (["downloads", "Cleaned", "x.txt"] : FsPath).dropLast) ∧
      (∀ q, q ∉ srcsCollide → fsExists (initState fsCollide).fs q = true →
        fsLookup (moveSeq cfgRun (initState fsCollide) ["downloads", "Cleaned", "x.txt"]
          srcsCollide).fs q = fsLookup (initState fsCollide).fs q)) :=
  ⟨⟨by decide, by decide, by decide, by decide⟩,
    C2_collision_resolution_injective ["downloads", "Cleaned", "x.txt"] srcsCollide
      (initState fsCollide) (by decide) (by decide) (by decide) (by decide)⟩

/-! ### The classifier -/

theorem find?_first_index {α : Type} (p : α → Bool) :
    ∀ (L : List α) (i : Nat) (x : α), L.get? i = some x → p x = true →
    (∀ j y, j < i → L.get? j = some y → p y = false) → L.find? p = some x := by
  intro L
  induction L with
  | nil => intro i x h; cases h
  | cons a t ih =>
    intro i x hget hp hprev
    cases i with
    | zero =>
      have ha : a = x := by simpa using hget
      rw [ha, List.find?_cons_of_pos _ hp]
    | succ n =>
      have ha : p a = false := hprev 0 a (Nat.succ_pos n) rfl
      rw [List.find?_cons_of_neg _ (by simp [ha])]
      exact ih n x (by simpa using hget) hp
        (fun j y hj hy => hprev (j + 1) y (by omega) (by simpa using hy))

/-- C6: classification is a pure total function of the extension: the
category table is scanned in its declared order (Images, Documents, PDFs,
Archives, Installers, Video, Audio, Code); the first category whose
extension list contains the lower-cased suffix wins; an extension in no
list yields `Others`; and the overlapping `.dmg` resolves to `Archives`,
the earlier of its two containing categories, even though it also sits in
the `Installers` list. -/
theorem C6_classifier_first_match :
    (CATEGORIES.map Prod.fst =
      ["Images", "Documents", "PDFs", "Archives", "Installers", "Video", "Audio", "Code"]) ∧
    (∀ name, (∀ ce ∈ CATEGORIES, lowerStr (pySuffix name) ∉ ce.2) →
      get_category name = "Others") ∧
    (∀ name i ce, CATEGORIES.get? i = some ce →
      lowerStr (pySuffix name) ∈ ce.2 →
      (∀ j < i, lowerStr (pySuffix name) ∉ ((CATEGORIES.get? j).map Prod.snd).getD []) →
      get_category name = ce.1) ∧
    get_category "x.dmg" = "Archives" ∧
    ".dmg" ∈ ((CATEGORIES.get? 4).map Prod.snd).getD [] := by
  refine ⟨by decide, ?_, ?_, by decide, by decide⟩
  · intro name hnone
    unfold get_category
    have hfind : CATEGORIES.find? (fun c => c.2.contains (lowerStr (pySuffix name))) = none := by
      rw [List.find?_eq_none]
      intro ce hce
      have := hnone ce hce
      simp only [List.contains]
      simpa using this
    rw [hfind]
  · intro name i ce hget hmem hprev
    unfold get_category
    have hfind : CATEGORIES.find? (fun c => c.2.contains (lowerStr (pySuffix name)))
        = some ce := by
      apply find?_first_index _ CATEGORIES i ce hget (by simpa using hmem)
      intro j y hj hy
      have := hprev j hj
      rw [hy] at this
      simpa using this
    rw [hfind]

/-- Witness for C6: an unknown extension classifies as `Others`; `.pdf`
matches the `PDFs` entry at index 2 with no earlier match. -/
theorem C6_classifier_first_match_witness :
    get_category "weird.zzz" = "Others" ∧ get_category "report.pdf" = "PDFs" :=
  ⟨C6_classifier_first_match.2.1 "weird.zzz" (by decide),
   C6_classifier_first_match.2.2.1 "report.pdf" 2 ("PDFs", [".pdf"]) (by decide) (by decide)
     (by decide)⟩

/-! ### Undo of a logged move -/

/-- C3 counterexample: a session logged `downloads/a.txt →
Cleaned/Documents/a.txt`; since then a new `downloads/a.txt` (content 99)
appeared.  The non-preview undo reverses the move with a raw `shutil.move`
and replaces the new file: afterwards `downloads/a.txt` holds the moved
content 1, content 99 survives nowhere, and the reversal is even counted a
success — refuting "the reversal ... never overwrites a file that currently
exists at the logged source path". -/
theorem C3_counterexample_undo_overwrites :
    fsLookup fsUndoClobber ["downloads", "a.txt"]
      = some ⟨["downloads", "a.txt"], Content.bytes 99, true⟩ ∧
    (undo_cleanup srcDir false fsUndoClobber).map
      (fun r => (fsLookup r.fs ["downloads", "a.txt"],
        r.fs.all (fun e => !(e.content == Content.bytes 99)), r.success_count, r.error_count))
      = some (some ⟨["downloads", "a.txt"], Content.bytes 1, true⟩, true, 1, 0) := by decide

/-- C3 amended: a `Move` reversed by a non-preview undo whose logged
destination still exists is performed by a raw move (not the conflict-safe
mover): the logged source path afterwards holds the moved entry, replacing
whatever file was there, and the reversal counts as a success. -/
theorem C3_amended_undo_move_overwrites {fs : FS} {src dst : FsPath} {ed : Entry}
    (sc ec ts : Nat) (hd : fsLookup fs dst = some ed) :
    (undoOp false ⟨fs, sc, ec⟩ (Op.move src dst ts)).fs = fsMove fs dst src ∧
    fsLookup (undoOp false ⟨fs, sc, ec⟩ (Op.move src dst ts)).fs src
      = some ⟨src, ed.content, ed.readable⟩ ∧
    (undoOp false ⟨fs, sc, ec⟩ (Op.move src dst ts)).success_count = sc + 1 := by
  have hex : fsExists fs dst = true := fsExists_of_lookup_some hd
  have hstep : undoOp false ⟨fs, sc, ec⟩ (Op.move src dst ts)
      = ⟨fsMove fs dst src, sc + 1, ec⟩ := by
    unfold undoOp
    simp [hex]
  refine ⟨by rw [hstep], ?_, by rw [hstep]⟩
  rw [hstep]
  show fsLookup (fsMove fs dst src) src = _
  rw [fsLookup_move, hd]
  simp

/-- Witness for C3's amended claim on the `fsUndoClobber` scenario. -/
theorem C3_amended_undo_move_overwrites_witness :
    fsLookup fsUndoClobber ["downloads", "Cleaned", "Documents", "a.txt"]
      = some ⟨["downloads", "Cleaned", "Documents", "a.txt"], Content.bytes 1, true⟩ ∧
    ((undoOp false ⟨fsUndoClobber, 0, 0⟩ (Op.move ["downloads", "a.txt"]
        ["downloads", "Cleaned", "Documents", "a.txt"] 0)).fs
      = fsMove fsUndoClobber ["downloads", "Cleaned", "Documents", "a.txt"]
          ["downloads", "a.txt"] ∧
    fsLookup (undoOp false ⟨fsUndoClobber, 0, 0⟩ (Op.move ["downloads", "a.txt"]
        ["downloads", "Cleaned", "Documents", "a.txt"] 0)).fs ["downloads", "a.txt"]
      = some ⟨["downloads", "a.txt"], Content.bytes 1, true⟩ ∧
    (undoOp false ⟨fsUndoClobber, 0, 0⟩ (Op.move ["downloads", "a.txt"]
        ["downloads", "Cleaned", "Documents", "a.txt"] 0)).success_count = 0 + 1) :=
  ⟨by decide,
   @C3_amended_undo_move_overwrites fsUndoClobber ["downloads", "a.txt"]
     ["downloads", "Cleaned", "Documents", "a.txt"]
     ⟨["downloads", "Cleaned", "Documents", "a.txt"], Content.bytes 1, true⟩ 0 0 0 (by decide)⟩

/-! ### Undo counting -/

theorem undoOp_move_effect (dry : Bool) (u : UndoState) (src dst : FsPath) (ts : Nat) :
    ((undoOp dry u (Op.move src dst ts)).success_count = u.success_count + 1 ∧
     (undoOp dry u (Op.move src dst ts)).error_count = u.error_count) ∨
    ((undoOp dry u (Op.move src dst ts)).success_count = u.success_count ∧
     (undoOp dry u (Op.move src dst ts)).error_count = u.error_count + 1) := by
  unfold undoOp
  by_cases hdry : dry = true
  · left
    simp [hdry]
  · have hd : dry = false := Bool.eq_false_iff.mpr hdry
    by_cases hex : fsExists u.fs dst = true
    · left
      simp [hd, hex]
    · right
      simp [hd, Bool.eq_false_iff.mpr hex]

theorem undoOp_delete_effect (dry : Bool) (u : UndoState) (src : FsPath) (ts : Nat) :
    (undoOp dry u (Op.delete src ts)).success_count = u.success_count ∧
    (undoOp dry u (Op.delete src ts)).error_count = u.error_count + 1 := by
  unfold undoOp
  exact ⟨rfl, rfl⟩

theorem undoOp_merge_effect (dry : Bool) (u : UndoState) (files : List FsPath)
    (out : FsPath) (ts : Nat) :
    undoOp dry u (Op.mergePdfs files out ts) = u := rfl

/-- Counter bookkeeping of the undo replay loop: every `move` adds one to
exactly one of the two counters, every `delete` adds one to the error
counter, and `merge_pdfs` records touch neither. -/
theorem undoReplay_counts (dry : Bool) : ∀ (ops : List Op) (u : UndoState),
    ((ops.foldl (undoOp dry) u).success_count + (ops.foldl (undoOp dry) u).error_count
      = u.success_count + u.error_count + countMoves ops + countDeletes ops) ∧
    (ops.foldl (undoOp dry) u).success_count ≤ u.success_count + countMoves ops ∧
    u.error_count + countDeletes ops ≤ (ops.foldl (undoOp dry) u).error_count := by
  intro ops
  induction ops with
  | nil =>
    intro u
    simp [countMoves, countDeletes]
  | cons op t ih =>
    intro u
    rw [List.foldl_cons]
    obtain ⟨h1, h2, h3⟩ := ih (undoOp dry u op)
    rcases op with ⟨src, dst, ts⟩ | ⟨src, ts⟩ | ⟨files, out, ts⟩
    · have hc1 : countMoves (Op.move src dst ts :: t) = countMoves t + 1 := by
        simp [countMoves, List.filter_cons]
      have hc2 : countDeletes (Op.move src dst ts :: t) = countDeletes t := by
        simp [countDeletes, List.filter_cons]
      rw [hc1, hc2]
      rcases undoOp_move_effect dry u src dst ts with ⟨hs, he⟩ | ⟨hs, he⟩ <;>
        exact ⟨by omega, by omega, by omega⟩
    · have hc1 : countMoves (Op.delete src ts :: t) = countMoves t := by
        simp [countMoves, List.filter_cons]
      have hc2 : countDeletes (Op.delete src ts :: t) = countDeletes t + 1 := by
        simp [countDeletes, List.filter_cons]
      rw [hc1, hc2]
      obtain ⟨hs, he⟩ := undoOp_delete_effect dry u src ts
      exact ⟨by omega, by omega, by omega⟩
    · have hc1 : countMoves (Op.mergePdfs files out ts :: t) = countMoves t := by
        simp [countMoves, List.filter_cons]
      have hc2 : countDeletes (Op.mergePdfs files out ts :: t) = countDeletes t := by
        simp [countDeletes, List.filter_cons]
      rw [hc1, hc2, undoOp_merge_effect] at *
      exact ⟨by omega, by omega, by omega⟩

theorem countMoves_reverse (ops : List Op) : countMoves ops.reverse = countMoves ops := by
  unfold countMoves
  rw [List.filter_reverse, List.length_reverse]

theorem countDeletes_reverse (ops : List Op) : countDeletes ops.reverse = countDeletes ops := by
  unfold countDeletes
  rw [List.filter_reverse, List.length_reverse]

theorem ops_length_partition (ops : List Op) :
    ops.length = countMoves ops + countDeletes ops + countMerges ops := by
  induction ops with
  | nil => rfl
  | cons op t ih =>
    rcases op with ⟨src, dst, ts⟩ | ⟨src, ts⟩ | ⟨files, out, ts⟩ <;>
      simp [countMoves, countDeletes, countMerges, List.filter_cons] at * <;> omega

/-- Evaluation of a non-preview `undo_cleanup` on a readable store with a
nonempty session list. -/
theorem undo_cleanup_run {source : FsPath} {fs : FS} {sessions : List Session}
    (hl : fsLookup fs (source ++ [HISTORY_FILE])
      = some ⟨source ++ [HISTORY_FILE], Content.store sessions, true⟩)
    (hne : sessions ≠ []) :
    undo_cleanup source false fs =
      some ⟨fsWrite ((sessions.getLastD emptySession).operations.reverse.foldl (undoOp false)
          ⟨fs, 0, 0⟩).fs (source ++ [HISTORY_FILE]) (Content.store sessions.dropLast),
        ((sessions.getLastD emptySession).operations.reverse.foldl (undoOp false)
          ⟨fs, 0, 0⟩).success_count,
        ((sessions.getLastD emptySession).operations.reverse.foldl (undoOp false)
          ⟨fs, 0, 0⟩).error_count⟩ := by
  have hie : sessions.isEmpty = false := by
    cases sessions with
    | nil => exact absurd rfl hne
    | cons a t => rfl
  unfold undo_cleanup
  dsimp only
  rw [hl]
  simp [hie]

/-- C8: a completed non-preview undo removes exactly the last session from
the store and rewrites the store file, however many reversals failed; and
every `Delete` in the replayed session is counted as a reversal failure
(the error count is the deletes plus the failed moves). -/
theorem C8_undo_rewrites_store_and_counts_deletes
    {source : FsPath} {fs : FS} {sessions : List Session}
    (hl : fsLookup fs (source ++ [HISTORY_FILE])
      = some ⟨source ++ [HISTORY_FILE], Content.store sessions, true⟩)
    (hne : sessions ≠ []) :
    ∃ r, undo_cleanup source false fs = some r ∧
      fsLookup r.fs (source ++ [HISTORY_FILE])
        = some ⟨source ++ [HISTORY_FILE], Content.store sessions.dropLast, true⟩ ∧
      r.success_count ≤ countMoves (sessions.getLastD emptySession).operations ∧
      r.error_count = countDeletes (sessions.getLastD emptySession).operations
        + (countMoves (sessions.getLastD emptySession).operations - r.success_count) := by
  rw [undo_cleanup_run hl hne]
  refine ⟨_, rfl, ?_, ?_, ?_⟩
  · rw [fsLookup_write]
    simp
  · obtain ⟨_, h2, _⟩ := undoReplay_counts false
      (sessions.getLastD emptySession).operations.reverse ⟨fs, 0, 0⟩
    rw [countMoves_reverse] at h2
    simpa using h2
  · obtain ⟨h1, h2, h3⟩ := undoReplay_counts false
      (sessions.getLastD emptySession).operations.reverse ⟨fs, 0, 0⟩
    rw [countMoves_reverse] at h1 h2
    rw [countDeletes_reverse] at h1 h3
    dsimp only at h1 h2 h3 ⊢
    omega

/-- Witness for C8 on a two-session store whose last session holds one
reversible move and one delete. -/
theorem C8_undo_rewrites_store_witness :
    (fsLookup fsUndoMixed (srcDir ++ [HISTORY_FILE])
        = some ⟨srcDir ++ [HISTORY_FILE], Content.store mixedSessions, true⟩ ∧
      mixedSessions ≠ []) ∧
    (∃ r, undo_cleanup srcDir false fsUndoMixed = some r ∧
      fsLookup r.fs (srcDir ++ [HISTORY_FILE])
        = some ⟨srcDir ++ [HISTORY_FILE], Content.store mixedSessions.dropLast, true⟩ ∧
      r.success_count ≤ countMoves (mixedSessions.getLastD emptySession).operations ∧
      r.error_count = countDeletes (mixedSessions.getLastD emptySession).operations
        + (countMoves (mixedSessions.getLastD emptySession).operations - r.success_count)) :=
  ⟨⟨by decide, by decide⟩,
   C8_undo_rewrites_store_and_counts_deletes (by decide) (by decide)⟩

/-- C9 counterexample: the last session holds exactly one operation, a
`merge_pdfs` record (which `merge_pdf_files` really appends), yet the undo
summary reports zero successes and zero failures — the operation is
silently dropped from the counts, refuting "each logged operation is
counted exactly once". -/
theorem C9_counterexample_merge_record_dropped :
    (storeAt fsUndoMerge (srcDir ++ [HISTORY_FILE])).map
      (fun s => (s.getLastD emptySession).operations.length) = some 1 ∧
    (undo_cleanup srcDir false fsUndoMerge).map
      (fun r => (r.success_count, r.error_count)) = some (0, 0) := by decide

/-- C9 amended: the undo summary accounts for every `Move` and `Delete` of
the replayed session exactly once — successes plus failures equal the
number of moves plus deletes — but `merge_pdfs` records match neither
branch of the replay loop and are silently skipped, appearing in neither
count. -/
theorem C9_amended_move_delete_conservation
    {source : FsPath} {fs : FS} {sessions : List Session}
    (hl : fsLookup fs (source ++ [HISTORY_FILE])
      = some ⟨source ++ [HISTORY_FILE], Content.store sessions, true⟩)
    (hne : sessions ≠ []) :
    ∃ r, undo_cleanup source false fs = some r ∧
      r.success_count + r.error_count
        = countMoves (sessions.getLastD emptySession).operations
          + countDeletes (sessions.getLastD emptySession).operations ∧
      (sessions.getLastD emptySession).operations.length
        = countMoves (sessions.getLastD emptySession).operations
          + countDeletes (sessions.getLastD emptySession).operations
          + countMerges (sessions.getLastD emptySession).operations := by
  rw [undo_cleanup_run hl hne]
  refine ⟨_, rfl, ?_, ops_length_partition _⟩
  obtain ⟨h1, _, _⟩ := undoReplay_counts false
    (sessions.getLastD emptySession).operations.reverse ⟨fs, 0, 0⟩
  rw [countMoves_reverse, countDeletes_reverse] at h1
  simpa using h1

/-- Witness for C9's amended claim on the `fsUndoMerge` store (one merge
record: zero moves, zero deletes, one merge). -/
theorem C9_amended_move_delete_conservation_witness :
    (fsLookup fsUndoMerge (srcDir ++ [HISTORY_FILE])
        = some ⟨srcDir ++ [HISTORY_FILE], Content.store mergeSessions, true⟩ ∧
      mergeSessions ≠ []) ∧
    (∃ r, undo_cleanup srcDir false fsUndoMerge = some r ∧
      r.success_count + r.error_count
        = countMoves (mergeSessions.getLastD emptySession).operations
          + countDeletes (mergeSessions.getLastD emptySession).operations ∧
      (mergeSessions.getLastD emptySession).operations.length
        = countMoves (mergeSessions.getLastD emptySession).operations
          + countDeletes (mergeSessions.getLastD emptySession).operations
          + countMerges (mergeSessions.getLastD emptySession).operations) :=
  ⟨⟨by decide, by decide⟩,
   C9_amended_move_delete_conservation (by decide) (by decide)⟩

/-! ### Preview mode -/

theorem foldl_fs_invariant {α : Type} (f : CleanerState → α → CleanerState)
    (hf : ∀ s a, (f s a).fs = s.fs) :
    ∀ (l : List α) (st : CleanerState), (l.foldl f st).fs = st.fs := by
  intro l
  induction l with
  | nil => intro st; rfl
  | cons a t ih => intro st; rw [List.foldl_cons, ih, hf]

theorem clean_temp_files_fs_dry {cfg : Config} (h : cfg.dry_run = true) (st : CleanerState) :
    (clean_temp_files cfg st).fs = st.fs := by
  unfold clean_temp_files
  cases hskip : cfg.no_temp_clean
  · simp only [hskip, Bool.false_eq_true, if_false]
    apply foldl_fs_invariant
    intro s a
    by_cases ht : isTemp (fileName a.path)
    · simp [ht, remove_file, h]
    · simp [ht]
  · simp [hskip]

theorem hashStage_fs (cfg : Config) (st : CleanerState) : (hashStage cfg st).fs = st.fs := rfl

theorem hashStage_stats (cfg : Config) (st : CleanerState) :
    (hashStage cfg st).stats = st.stats := rfl

theorem moveDuplicates_fs_dry {cfg : Config} (h : cfg.dry_run = true) (st : CleanerState) :
    (moveDuplicates cfg st).fs = st.fs := by
  unfold moveDuplicates
  apply foldl_fs_invariant
  intro s hl
  by_cases hlen : hl.2.length > 1
  · simp only [hlen, if_true]
    apply foldl_fs_invariant
    intro s' dup
    simp [dupStep, move_file, h]
  · simp [hlen]

theorem find_duplicates_fs_dry {cfg : Config} (h : cfg.dry_run = true) (st : CleanerState) :
    (find_duplicates cfg st).fs = st.fs := by
  unfold find_duplicates
  cases hskip : cfg.no_duplicates
  · simp only [hskip, Bool.false_eq_true, if_false]
    rw [moveDuplicates_fs_dry h, hashStage_fs]
  · simp [hskip]

theorem categorize_files_fs_dry {cfg : Config} (h : cfg.dry_run = true) (st : CleanerState) :
    (categorize_files cfg st).fs = st.fs := by
  unfold categorize_files
  apply foldl_fs_invariant
  intro s a
  by_cases ht : isTemp (fileName a.path)
  · simp [catStep, ht]
  · simp [catStep, ht, move_file, h]

theorem merge_pdf_files_fs_dry {cfg : Config} (h : cfg.dry_run = true) (st : CleanerState) :
    (merge_pdf_files cfg st).fs = st.fs := by
  unfold merge_pdf_files
  dsimp only
  split
  · rfl
  · split
    · rfl
    · split
      · rfl
      · split
        · rfl
        · simp [h]

theorem save_history_fs_dry {cfg : Config} (h : cfg.dry_run = true) (st : CleanerState) :
    (save_history cfg st).fs = st.fs := by
  unfold save_history
  simp [h]

/-- C4: a preview (`--dry-run`) pipeline run leaves the filesystem — and
with it the persisted history store, which is a file of the source
directory — completely unchanged, and a second preview run over the
unchanged directory produces exactly the same summary counters. -/
theorem C4_preview_no_mutation_and_idempotent (cfg : Config) (fs : FS)
    (h : cfg.dry_run = true) :
    (runPipeline cfg (initState fs)).fs = fs ∧
    storeAt (runPipeline cfg (initState fs)).fs (cfg.source_path ++ [HISTORY_FILE])
      = storeAt fs (cfg.source_path ++ [HISTORY_FILE]) ∧
    (runPipeline cfg (initState (runPipeline cfg (initState fs)).fs)).stats
      = (runPipeline cfg (initState fs)).stats := by
  have hfs : ∀ st : CleanerState, (runPipeline cfg st).fs = st.fs := by
    intro st
    unfold runPipeline
    rw [save_history_fs_dry h, merge_pdf_files_fs_dry h, categorize_files_fs_dry h,
      find_duplicates_fs_dry h, clean_temp_files_fs_dry h]
  refine ⟨hfs (initState fs), ?_, ?_⟩
  · rw [hfs (initState fs)]
    rfl
  · rw [hfs (initState fs)]
    rfl

/-- Witness for C4 in the default preview configuration over a one-file
directory. -/
theorem C4_preview_no_mutation_and_idempotent_witness :
    cfgPreview.dry_run = true ∧
    ((runPipeline cfgPreview (initState fsOneTxt)).fs = fsOneTxt ∧
      storeAt (runPipeline cfgPreview (initState fsOneTxt)).fs
          (cfgPreview.source_path ++ [HISTORY_FILE])
        = storeAt fsOneTxt (cfgPreview.source_path ++ [HISTORY_FILE]) ∧
      (runPipeline cfgPreview
          (initState (runPipeline cfgPreview (initState fsOneTxt)).fs)).stats
        = (runPipeline cfgPreview (initState fsOneTxt)).stats) :=
  ⟨rfl, C4_preview_no_mutation_and_idempotent cfgPreview fsOneTxt rfl⟩

/-! ### Hash failures -/

/-- C7 counterexample: `downloads/y.bin` is unreadable, so its hash fails;
the duplicate scan excludes it and carries on (it still pairs `x.bin` with
`z.bin`), but the error counter stays `0` — the hash failure is *not*
counted, refuting "increments the run's error counter". -/
theorem C7_counterexample_error_not_counted :
    fsLookup fsUnreadable ["downloads", "y.bin"]
      = some ⟨["downloads", "y.bin"], Content.bytes 2, false⟩ ∧
    isTemp "y.bin" = false ∧
    calculate_hash fsUnreadable ["downloads", "y.bin"] = none ∧
    (find_duplicates cfgRun (initState fsUnreadable)).stats.errors = 0 ∧
    ["downloads", "y.bin"] ∉
      bucketPaths (find_duplicates cfgRun (initState fsUnreadable)).file_hashes ∧
    (find_duplicates cfgRun (initState fsUnreadable)).stats.duplicates_found = 1 := by decide

/-- C7 amended: a file whose digest computation fails is excluded from
duplicate grouping while the scan simply continues with the remaining
files; the hashing loop never touches the stats, so the error counter is
not incremented (the failure is only logged). -/
theorem C7_amended_hash_failure_skipped (fs : FS) (m : List (Content × List FsPath))
    (e : Entry) (l₁ l₂ : List Entry) (h : calculate_hash fs e.path = none) :
    buildHashes fs (l₁ ++ e :: l₂) m = buildHashes fs (l₁ ++ l₂) m ∧
    (∀ cfg st, (hashStage cfg st).stats.errors = st.stats.errors ∧
      (hashStage cfg st).fs = st.fs) := by
  constructor
  · unfold buildHashes
    rw [List.foldl_append, List.foldl_append, List.foldl_cons]
    by_cases ht : isTemp (fileName e.path) <;> simp [ht, h]
  · exact fun _ _ => ⟨rfl, rfl⟩

/-- Witness for C7's amended claim: the unreadable `y.bin` drops out of the
grouping of `fsUnreadable`. -/
theorem C7_amended_hash_failure_skipped_witness :
    calculate_hash fsUnreadable ["downloads", "y.bin"] = none ∧
    (buildHashes fsUnreadable
        ([⟨["downloads", "x.bin"], Content.bytes 1, true⟩]
          ++ ⟨["downloads", "y.bin"], Content.bytes 2, false⟩
            :: [⟨["downloads", "z.bin"], Content.bytes 1, true⟩]) []
      = buildHashes fsUnreadable
        ([⟨["downloads", "x.bin"], Content.bytes 1, true⟩]
          ++ [⟨["downloads", "z.bin"], Content.bytes 1, true⟩]) [] ∧
    (∀ cfg st, (hashStage cfg st).stats.errors = st.stats.errors ∧
      (hashStage cfg st).fs = st.fs)) :=
  ⟨by decide,
   C7_amended_hash_failure_skipped fsUnreadable []
     ⟨["downloads", "y.bin"], Content.bytes 2, false⟩
     [⟨["downloads", "x.bin"], Content.bytes 1, true⟩]
     [⟨["downloads", "z.bin"], Content.bytes 1, true⟩] (by decide)⟩

/-! ### Two successive runs and undo -/

/-- C1: evidence of the divergence.  Starting from one file `a.txt`: run 1
persists a store with one session; run 2 (over the same source directory,
which now also contains the history file) leaves a store that again holds
only *one* session — the first run's entry is no longer in the store, the
second run's categorization having relocated the store file into
`Cleaned/Code/` before `save_history` wrote a fresh one.  The first undo
then reports one reversed move but leaves the store holding `[]` (it moves
the relocated old store back over the current one, then rewrites it with
the popped — empty — list), and a second undo fails with "no sessions"
instead of reversing the first run's operations. -/
theorem C1_second_session_evicted_and_second_undo_fails :
    (storeAt (runPipeline cfgRun (initState fsOneTxt)).fs (srcDir ++ [HISTORY_FILE])).map
        List.length = some 1 ∧
    (storeAt (runPipeline cfgRun
        (initState (runPipeline cfgRun (initState fsOneTxt)).fs)).fs
      (srcDir ++ [HISTORY_FILE])).map List.length = some 1 ∧
    (undo_cleanup srcDir false
        (runPipeline cfgRun (initState (runPipeline cfgRun (initState fsOneTxt)).fs)).fs).map
      (fun r => (storeAt r.fs (srcDir ++ [HISTORY_FILE]), r.success_count, r.error_count,
        undo_cleanup srcDir false r.fs))
      = some (some [], 1, 0, none) := by decide

/-! ### Digest buckets -/

theorem bucketPaths_cons (hl : Content × List FsPath) (m : List (Content × List FsPath)) :
    bucketPaths (hl :: m) = hl.2 ++ bucketPaths m := by
  simp [bucketPaths]

theorem mem_bucketPaths_addHash (h : Content) (p : FsPath) :
    ∀ (m) (q : FsPath), q ∈ bucketPaths (addHash m h p) ↔ q ∈ bucketPaths m ∨ q = p := by
  intro m
  induction m with
  | nil => intro q; simp [addHash, bucketPaths]
  | cons hl rest ih =>
    intro q
    rcases hl with ⟨h₀, ps⟩
    unfold addHash
    by_cases hh : h₀ = h
    · rw [if_pos hh, bucketPaths_cons, bucketPaths_cons]
      simp only [List.mem_append, List.mem_singleton]
      tauto
    · rw [if_neg hh, bucketPaths_cons, bucketPaths_cons]
      simp only [List.mem_append, ih q]
      tauto

theorem nodup_bucketPaths_addHash (h : Content) (p : FsPath) :
    ∀ m, (bucketPaths m).Nodup → p ∉ bucketPaths m →
      (bucketPaths (addHash m h p)).Nodup := by
  intro m
  induction m with
  | nil =>
    intro _ _
    simp [addHash, bucketPaths]
  | cons hl rest ih =>
    intro hnd hp
    rcases hl with ⟨h₀, ps⟩
    rw [bucketPaths_cons] at hnd hp
    unfold addHash
    by_cases hh : h₀ = h
    · rw [if_pos hh, bucketPaths_cons]
      have he : ((ps ++ [p]) ++ bucketPaths rest : List FsPath)
          = ps ++ p :: bucketPaths rest := by simp
      show ((ps ++ [p]) ++ bucketPaths rest).Nodup
      rw [he, List.nodup_middle, List.nodup_cons]
      exact ⟨hp, hnd⟩
    · rw [if_neg hh, bucketPaths_cons]
      rw [List.nodup_append] at hnd ⊢
      obtain ⟨h1, h2, h3⟩ := hnd
      have hp1 : p ∉ ps := fun hm => hp (List.mem_append_left _ hm)
      have hp2 : p ∉ bucketPaths rest := fun hm => hp (List.mem_append_right _ hm)
      refine ⟨h1, ih h2 hp2, ?_⟩
      intro a ha hmem
      rcases (mem_bucketPaths_addHash h p rest a).mp hmem with hm | hm
      · exact h3 ha hm
      · exact hp1 (hm ▸ ha)

theorem addHash_pred (P : Content → FsPath → Prop) (h : Content) (p : FsPath) (hp : P h p) :
    ∀ m, (∀ hl ∈ m, ∀ q ∈ hl.2, P hl.1 q) →
      ∀ hl ∈ addHash m h p, ∀ q ∈ hl.2, P hl.1 q := by
  intro m
  induction m with
  | nil =>
    intro _ hl hmem q hq
    have hhl : hl = (h, [p]) := by simpa [addHash] using hmem
    rw [hhl] at hq ⊢
    have hqp : q = p := by simpa using hq
    rw [hqp]
    exact hp
  | cons hl₀ rest ih =>
    intro hall hl hmem q hq
    rcases hl₀ with ⟨h₀, ps⟩
    unfold addHash at hmem
    by_cases hh : h₀ = h
    · rw [if_pos hh] at hmem
      rcases List.mem_cons.mp hmem with he | he
      · rw [he] at hq ⊢
        rcases List.mem_append.mp hq with hqq | hqq
        · exact hall (h₀, ps) (List.mem_cons_self _ _) q hqq
        · have hqp : q = p := by simpa using hqq
          rw [hqp]
          show P h₀ p
          rw [hh]
          exact hp
      · exact hall hl (List.mem_cons_of_mem _ he) q hq
    · rw [if_neg hh] at hmem
      rcases List.mem_cons.mp hmem with he | he
      · rw [he] at hq ⊢
        exact hall (h₀, ps) (List.mem_cons_self _ _) q hq
      · exact ih (fun hl' hm => hall hl' (List.mem_cons_of_mem _ hm)) hl he q hq

/-- One step of the hashing loop. -/
theorem buildHashes_cons (fs : FS) (e : Entry) (rest : List Entry)
    (m : List (Content × List FsPath)) :
    buildHashes fs (e :: rest) m =
      buildHashes fs rest
        (if isTemp (fileName e.path) then m
         else match calculate_hash fs e.path with
           | some h => addHash m h e.path
           | none => m) := rfl

theorem buildHashes_pred (fs : FS) (P : Content → FsPath → Prop) :
    ∀ (files : List Entry) (m : List (Content × List FsPath)),
      (∀ e ∈ files, ∀ h, calculate_hash fs e.path = some h → P h e.path) →
      (∀ hl ∈ m, ∀ q ∈ hl.2, P hl.1 q) →
      ∀ hl ∈ buildHashes fs files m, ∀ q ∈ hl.2, P hl.1 q := by
  intro files
  induction files with
  | nil => intro m _ hm; exact hm
  | cons e rest ih =>
    intro m hfiles hm
    rw [buildHashes_cons]
    apply ih _ (fun e' he' => hfiles e' (List.mem_cons_of_mem _ he'))
    by_cases ht : isTemp (fileName e.path)
    · simpa [ht] using hm
    · rcases hh : calculate_hash fs e.path with _ | hv
      · simpa [ht, hh] using hm
      · simp only [ht, Bool.false_eq_true, if_false, hh]
        exact addHash_pred P hv e.path
          (hfiles e (List.mem_cons_self _ _) hv hh) m hm

theorem mem_bucketPaths_buildHashes (fs : FS) :
    ∀ (files : List Entry) (m : List (Content × List FsPath)) (q : FsPath),
      q ∈ bucketPaths (buildHashes fs files m) →
      q ∈ bucketPaths m ∨ q ∈ pathsOf files := by
  intro files
  induction files with
  | nil => intro m q h; exact Or.inl h
  | cons e rest ih =>
    intro m q h
    rw [buildHashes_cons] at h
    rcases ih _ q h with hm | hm
    · by_cases ht : isTemp (fileName e.path)
      · rw [if_pos ht] at hm
        exact Or.inl hm
      · rw [if_neg ht] at hm
        rcases hh : calculate_hash fs e.path with _ | hv
        · rw [hh] at hm
          exact Or.inl hm
        · rw [hh] at hm
          rcases (mem_bucketPaths_addHash hv e.path m q).mp hm with hm' | hm'
          · exact Or.inl hm'
          · exact Or.inr (by
              rw [hm']
              exact List.mem_map_of_mem (fun x => x.path) (List.mem_cons_self e rest))
    · exact Or.inr (List.mem_map.mpr (by
        obtain ⟨e', he', hp⟩ := List.mem_map.mp hm
        exact ⟨e', List.mem_cons_of_mem _ he', hp⟩))

theorem buildHashes_nodup (fs : FS) :
    ∀ (files : List Entry) (m : List (Content × List FsPath)),
      (∀ q ∈ bucketPaths m, q ∉ pathsOf files) →
      (bucketPaths m).Nodup → (pathsOf files).Nodup →
      (bucketPaths (buildHashes fs files m)).Nodup := by
  intro files
  induction files with
  | nil => intro m _ h _; exact h
  | cons e rest ih =>
    intro m hdisj hnd hfnd
    have hfnd2 : (pathsOf (e :: rest)) = e.path :: pathsOf rest := rfl
    rw [hfnd2, List.nodup_cons] at hfnd
    rw [buildHashes_cons]
    apply ih
    · intro q hq hrest
      by_cases ht : isTemp (fileName e.path)
      · rw [if_pos ht] at hq
        exact hdisj q hq (List.mem_cons_of_mem _ hrest)
      · rw [if_neg ht] at hq
        rcases hh : calculate_hash fs e.path with _ | hv
        · rw [hh] at hq
          exact hdisj q hq (List.mem_cons_of_mem _ hrest)
        · rw [hh] at hq
          rcases (mem_bucketPaths_addHash hv e.path m q).mp hq with hm | hm
          · exact hdisj q hm (List.mem_cons_of_mem _ hrest)
          · rw [hm] at hrest
            exact hfnd.1 hrest
    · by_cases ht : isTemp (fileName e.path)
      · rw [if_pos ht]
        exact hnd
      · rw [if_neg ht]
        rcases hh : calculate_hash fs e.path with _ | hv
        · exact hnd
        · show (bucketPaths (addHash m hv e.path)).Nodup
          apply nodup_bucketPaths_addHash hv e.path m hnd
          intro hm
          exact hdisj e.path hm (by rw [hfnd2]; exact List.mem_cons_self _ _)
    · exact hfnd.2

/-! ### Surplus duplicates -/

theorem surplus_cons (hl : Content × List FsPath) (m : List (Content × List FsPath)) :
    surplus (hl :: m) = hl.2.drop 1 ++ surplus m := by
  simp [surplus]

theorem surplus_sublist (m : List (Content × List FsPath)) :
    List.Sublist (surplus m) (bucketPaths m) := by
  induction m with
  | nil => simp [surplus, bucketPaths]
  | cons hl rest ih =>
    rw [surplus_cons, bucketPaths_cons]
    exact List.Sublist.append (List.drop_sublist 1 hl.2) ih

theorem surplus_length (m : List (Content × List FsPath)) :
    (surplus m).length = excessDuplicates m := by
  induction m with
  | nil => rfl
  | cons hl rest ih =>
    rw [surplus_cons, List.length_append, List.length_drop, ih]
    show _ = (((hl :: rest).map (fun hl => hl.2.length - 1)).sum)
    rw [List.map_cons, List.sum_cons]
    rfl

theorem mem_surplus {m : List (Content × List FsPath)} {hl : Content × List FsPath}
    (hm : hl ∈ m) {p : FsPath} (hp : p ∈ hl.2.drop 1) : p ∈ surplus m :=
  List.mem_flatten.mpr ⟨hl.2.drop 1, List.mem_map_of_mem _ hm, hp⟩

theorem mem_bucketPaths_of_mem {m : List (Content × List FsPath)}
    {hl : Content × List FsPath} (hm : hl ∈ m) {p : FsPath} (hp : p ∈ hl.2) :
    p ∈ bucketPaths m :=
  List.mem_flatten.mpr ⟨hl.2, List.mem_map_of_mem _ hm, hp⟩

theorem head_not_in_surplus :
    ∀ (m : List (Content × List FsPath)), (bucketPaths m).Nodup →
    ∀ hl ∈ m, 1 < hl.2.length → hl.2.headD [] ∉ surplus m := by
  intro m
  induction m with
  | nil => intro _ hl hm; cases hm
  | cons hl₀ rest ih =>
    intro hnd hl hm hlen
    rw [bucketPaths_cons, List.nodup_append] at hnd
    obtain ⟨h1, h2, h3⟩ := hnd
    rw [surplus_cons]
    intro hmem
    rcases List.mem_cons.mp hm with he | he
    · rcases hps : hl.2 with _ | ⟨p₀, tail⟩
      · rw [hps] at hlen; simp at hlen
      · have hhd : hl.2.headD [] = p₀ := by rw [hps]; rfl
        have hdrop : hl.2.drop 1 = tail := by rw [hps]; rfl
        rw [hhd] at hmem
        have hp₀ : p₀ ∈ hl₀.2 := by
          rw [← he, hps]
          exact List.mem_cons_self _ _
        rcases List.mem_append.mp hmem with hm1 | hm1
        · have : hl₀.2.Nodup := h1
          rw [← he, hps] at this
          rw [← he, hdrop] at hm1
          exact (List.nodup_cons.mp this).1 hm1
        · exact h3 hp₀ ((surplus_sublist rest).mem hm1)
    · have hp₀mem : hl.2.headD [] ∈ hl.2 := by
        rcases hps : hl.2 with _ | ⟨p₀, tail⟩
        · rw [hps] at hlen; simp at hlen
        · exact List.mem_cons_self _ _
      have hp₀rest : hl.2.headD [] ∈ bucketPaths rest := mem_bucketPaths_of_mem he hp₀mem
      rcases List.mem_append.mp hmem with hm1 | hm1
      · exact h3 ((List.drop_sublist 1 hl₀.2).mem hm1) hp₀rest
      · exact ih h2 hl he hlen hm1

/-! ### The duplicate-moving loop -/

theorem inDir_eq_true_iff {dir p : FsPath} : inDir dir p = true ↔ p ≠ [] ∧ p.dropLast = dir := by
  simp [inDir, List.isEmpty_iff]

theorem fsExists_of_hash_some {fs : FS} {p : FsPath} {h : Content}
    (hh : calculate_hash fs p = some h) : fsExists fs p = true := by
  unfold calculate_hash at hh
  rcases hl : fsLookup fs p with _ | e
  · rw [hl] at hh; cases hh
  · exact fsExists_of_lookup_some hl

theorem move_file_not_exists {cfg : Config} {st : CleanerState} {src dest q : FsPath}
    (hdry : cfg.dry_run = false) (hq : q ≠ resolveDest st.fs dest)
    (hex : fsExists st.fs q = false) : fsExists (move_file cfg st src dest).fs q = false := by
  rw [fsExists_eq_isSome, move_file_fs st src dest hdry, fsLookup_move]
  rcases hsrc : fsLookup st.fs src with _ | e
  · rw [← fsExists_eq_isSome]
    exact hex
  · by_cases hqs : q = src
    · subst hqs
      simp [hq]
    · simp only [hq, hqs, if_false]
      rw [← fsExists_eq_isSome]
      exact hex

theorem dupStep_fs_eq (cfg : Config) (s : CleanerState) (p : FsPath) :
    (dupStep cfg s p).fs
      = (move_file cfg s p (cfg.target_path ++ ["Duplicates", fileName p])).fs := rfl

theorem dupStep_history (cfg : Config) (s : CleanerState) (p : FsPath) :
    (dupStep cfg s p).history = s.history
      ++ [Op.move p (resolveDest s.fs (cfg.target_path ++ ["Duplicates", fileName p])) s.clock]
    := rfl

theorem dupStep_dups (cfg : Config) (s : CleanerState) (p : FsPath) :
    (dupStep cfg s p).stats.duplicates_found = s.stats.duplicates_found + 1 := rfl

theorem dupStep_file_hashes (cfg : Config) (s : CleanerState) (p : FsPath) :
    (dupStep cfg s p).file_hashes = s.file_hashes := rfl

theorem dupDest_split (cfg : Config) (p : FsPath) :
    cfg.target_path ++ ["Duplicates", fileName p]
      = (cfg.target_path ++ ["Duplicates"]) ++ [fileName p] := by simp

theorem foldl_flatten {α β : Type} (f : β → α → β) :
    ∀ (ls : List (List α)) (b : β),
      ls.flatten.foldl f b = ls.foldl (fun b l => l.foldl f b) b := by
  intro ls
  induction ls with
  | nil => intro b; rfl
  | cons l rest ih =>
    intro b
    rw [List.flatten_cons, List.foldl_append, List.foldl_cons, ih]

theorem moveDuplicates_flat (cfg : Config) (st : CleanerState) :
    moveDuplicates cfg st = (surplus st.file_hashes).foldl (dupStep cfg) st := by
  unfold moveDuplicates surplus
  rw [foldl_flatten, List.foldl_map]
  have hfun : (fun (s : CleanerState) (hl : Content × List FsPath) =>
      if hl.2.length > 1 then (hl.2.drop 1).foldl (dupStep cfg) s else s)
      = fun s hl => (hl.2.drop 1).foldl (dupStep cfg) s := by
    funext s hl
    by_cases hlen : hl.2.length > 1
    · rw [if_pos hlen]
    · rw [if_neg hlen]
      have hd : hl.2.drop 1 = [] := List.drop_eq_nil_of_le (by omega)
      rw [hd]
      rfl
  rw [hfun]

/-- The flat duplicate-moving loop: every processed surplus file leaves the
source directory for a fresh path directly under `target / Duplicates`
(recorded in the log), the counter grows by one per processed file, every
other existing file keeps its entry, no file appears at a fresh path
outside the `Duplicates` folder, and the log only grows. -/
theorem dupSeq_spec {cfg : Config} (hdry : cfg.dry_run = false)
    (hsrc : cfg.source_path ≠ cfg.target_path ++ ["Duplicates"]) :
    ∀ (L : List FsPath) (s : CleanerState),
    L.Nodup →
    (∀ p ∈ L, fsExists s.fs p = true ∧ inDir cfg.source_path p = true) →
    ((L.foldl (dupStep cfg) s).stats.duplicates_found
        = s.stats.duplicates_found + L.length) ∧
    (∀ p ∈ L, fsExists (L.foldl (dupStep cfg) s).fs p = false ∧
      ∃ q ts, Op.move p q ts ∈ (L.foldl (dupStep cfg) s).history ∧
        q.dropLast = cfg.target_path ++ ["Duplicates"] ∧
        fsExists (L.foldl (dupStep cfg) s).fs q = true) ∧
    (∀ q, q ∉ L → fsExists s.fs q = true →
      fsLookup (L.foldl (dupStep cfg) s).fs q = fsLookup s.fs q) ∧
    (∀ op ∈ s.history, op ∈ (L.foldl (dupStep cfg) s).history) ∧
    ((L.foldl (dupStep cfg) s).file_hashes = s.file_hashes) ∧
    (∀ q, q.dropLast ≠ cfg.target_path ++ ["Duplicates"] → fsExists s.fs q = false →
      fsExists (L.foldl (dupStep cfg) s).fs q = false) := by
  intro L
  induction L with
  | nil =>
    intro s _ _
    exact ⟨rfl, fun p hp => absurd hp (List.not_mem_nil p),
      fun q _ _ => rfl, fun op h => h, rfl, fun q _ h => h⟩
  | cons p rest ih =>
    intro s hnodup hmem
    obtain ⟨hex, hdir⟩ := hmem p (List.mem_cons_self _ _)
    obtain ⟨hpne, hpdrop⟩ := inDir_eq_true_iff.mp hdir
    obtain ⟨e, he⟩ := lookup_some_of_fsExists hex
    have hnodup2 : rest.Nodup := (List.nodup_cons.mp hnodup).2
    have hpnot : p ∉ rest := (List.nodup_cons.mp hnodup).1
    have hd0free : fsExists s.fs
        (resolveDest s.fs (cfg.target_path ++ ["Duplicates", fileName p])) = false :=
      resolveDest_not_exists s.fs _
    have hd0drop : (resolveDest s.fs
        (cfg.target_path ++ ["Duplicates", fileName p])).dropLast
        = cfg.target_path ++ ["Duplicates"] := by
      rw [resolveDest_dropLast, dupDest_split, List.dropLast_concat]
    have hdne : p ≠ resolveDest s.fs (cfg.target_path ++ ["Duplicates", fileName p]) := by
      intro hpd
      apply hsrc
      rw [← hpdrop, hpd, hd0drop]
    have hmem2 : ∀ x ∈ rest, fsExists (dupStep cfg s p).fs x = true
        ∧ inDir cfg.source_path x = true := by
      intro x hx
      obtain ⟨hxe, hxd⟩ := hmem x (List.mem_cons_of_mem _ hx)
      have hxs : x ≠ p := fun h => hpnot (h ▸ hx)
      constructor
      · rw [fsExists_eq_isSome, dupStep_fs_eq,
          @move_file_lookup_other cfg s p (cfg.target_path ++ ["Duplicates", fileName p]) x
            hdry hxs hxe, ← fsExists_eq_isSome]
        exact hxe
      · exact hxd
    obtain ⟨ih1, ih2, ih3, ih4, ih5, ih6⟩ := ih (dupStep cfg s p) hnodup2 hmem2
    have hstep : (p :: rest).foldl (dupStep cfg) s = rest.foldl (dupStep cfg) (dupStep cfg s p) :=
      rfl
    have hd0look : fsLookup (dupStep cfg s p).fs
        (resolveDest s.fs (cfg.target_path ++ ["Duplicates", fileName p]))
        = some ⟨resolveDest s.fs (cfg.target_path ++ ["Duplicates", fileName p]),
            e.content, e.readable⟩ := by
      rw [dupStep_fs_eq]
      exact move_file_lookup_dest hdry he
    have hd0ex : fsExists (dupStep cfg s p).fs
        (resolveDest s.fs (cfg.target_path ++ ["Duplicates", fileName p])) = true :=
      fsExists_of_lookup_some hd0look
    have hd0rest : resolveDest s.fs (cfg.target_path ++ ["Duplicates", fileName p]) ∉ rest := by
      intro hmm
      obtain ⟨_, hxd⟩ := hmem _ (List.mem_cons_of_mem _ hmm)
      obtain ⟨_, hdl⟩ := inDir_eq_true_iff.mp hxd
      exact hsrc (by rw [← hdl, hd0drop])
    have hpgone1 : fsExists (dupStep cfg s p).fs p = false := by
      rw [fsExists_eq_isSome, dupStep_fs_eq, move_file_lookup_src hdry he]
      rfl
    refine ⟨?_, ?_, ?_, ?_, ?_, ?_⟩
    · rw [hstep, ih1, dupStep_dups]
      simp only [List.length_cons]
      omega
    · intro x hx
      rcases List.mem_cons.mp hx with hx | hx
      · subst hx
        constructor
        · rw [hstep]
          apply ih6 _ (by rw [hpdrop]; exact hsrc) hpgone1
        · refine ⟨resolveDest s.fs (cfg.target_path ++ ["Duplicates", fileName x]),
            s.clock, ?_, hd0drop, ?_⟩
          · rw [hstep]
            apply ih4
            rw [dupStep_history]
            exact List.mem_append_right _ (List.mem_singleton.mpr rfl)
          · rw [hstep, fsExists_eq_isSome, ih3 _ hd0rest hd0ex, ← fsExists_eq_isSome]
            exact hd0ex
      · obtain ⟨hgone, q, ts, hop, hqdrop, hqex⟩ := ih2 x hx
        exact ⟨by rw [hstep]; exact hgone, q, ts, by rw [hstep]; exact hop, hqdrop,
          by rw [hstep]; exact hqex⟩
    · intro q hq hqe
      have hqs : q ≠ p := fun h => hq (h ▸ List.mem_cons_self p rest)
      have hqrest : q ∉ rest := fun h => hq (List.mem_cons_of_mem _ h)
      have hq1 : fsLookup (dupStep cfg s p).fs q = fsLookup s.fs q := by
        rw [dupStep_fs_eq]
        exact @move_file_lookup_other cfg s p (cfg.target_path ++ ["Duplicates", fileName p]) q
          hdry hqs hqe
      have hqe1 : fsExists (dupStep cfg s p).fs q = true := by
        rw [fsExists_eq_isSome, hq1, ← fsExists_eq_isSome]
        exact hqe
      rw [hstep, ih3 q hqrest hqe1, hq1]
    · intro op hop
      rw [hstep]
      apply ih4
      rw [dupStep_history]
      exact List.mem_append_left _ hop
    · rw [hstep, ih5, dupStep_file_hashes]
    · intro q hqd hqe
      rw [hstep]
      apply ih6 q hqd
      apply move_file_not_exists hdry _ hqe
      intro hqq
      apply hqd
      rw [hqq, hd0drop]

theorem listDir_paths_nodup {fs : FS} (hwf : WFfs fs) (dir : FsPath) :
    (pathsOf (listDir fs dir)).Nodup := by
  unfold WFfs pathsOf at hwf
  unfold pathsOf listDir
  exact ((List.filter_sublist fs).map (fun e => e.path)).nodup hwf

theorem hashStage_file_hashes (cfg : Config) (st : CleanerState) :
    (hashStage cfg st).file_hashes
      = buildHashes st.fs (listDir st.fs cfg.source_path) st.file_hashes := rfl

theorem hashStage_history (cfg : Config) (st : CleanerState) :
    (hashStage cfg st).history = st.history := rfl

/-- C5: for every digest group with more than one member collected by the
duplicate scan, the first member (in directory iteration order) keeps its
entry untouched, while every other member disappears from its original
path and is moved — with a logged `move` record — to a fresh path directly
under the `Duplicates` folder of the target root; `duplicates_found` grows
by exactly one per moved file. -/
theorem C5_duplicate_groups_first_kept_rest_moved
    {cfg : Config} {st : CleanerState}
    (hdry : cfg.dry_run = false)
    (hdup : cfg.no_duplicates = false)
    (hwf : WFfs st.fs)
    (hfh : st.file_hashes = [])
    (hsd : cfg.source_path ≠ cfg.target_path ++ ["Duplicates"]) :
    (∀ hl ∈ (find_duplicates cfg st).file_hashes, 1 < hl.2.length →
      (fsLookup (find_duplicates cfg st).fs (hl.2.headD [])
          = fsLookup st.fs (hl.2.headD []) ∧
        fsExists (find_duplicates cfg st).fs (hl.2.headD []) = true) ∧
      (∀ p ∈ hl.2.drop 1,
        fsExists (find_duplicates cfg st).fs p = false ∧
        ∃ q ts, Op.move p q ts ∈ (find_duplicates cfg st).history ∧
          q.dropLast = cfg.target_path ++ ["Duplicates"] ∧
          fsExists (find_duplicates cfg st).fs q = true)) ∧
    (find_duplicates cfg st).stats.duplicates_found
      = st.stats.duplicates_found
        + excessDuplicates (find_duplicates cfg st).file_hashes := by
  have hfd : find_duplicates cfg st
      = (surplus (buildHashes st.fs (listDir st.fs cfg.source_path) [])).foldl (dupStep cfg)
        (hashStage cfg st) := by
    unfold find_duplicates
    rw [if_neg (by simp [hdup]), moveDuplicates_flat, hashStage_file_hashes, hfh]
  have hP : ∀ hl ∈ buildHashes st.fs (listDir st.fs cfg.source_path) [], ∀ q ∈ hl.2,
      calculate_hash st.fs q = some hl.1 ∧ inDir cfg.source_path q = true := by
    apply buildHashes_pred st.fs
      (fun h q => calculate_hash st.fs q = some h ∧ inDir cfg.source_path q = true)
    · intro e hef h hh
      exact ⟨hh, (List.mem_filter.mp hef).2⟩
    · intro hl hmem
      cases hmem
  have hnd : (bucketPaths (buildHashes st.fs (listDir st.fs cfg.source_path) [])).Nodup := by
    apply buildHashes_nodup
    · intro q hq
      simp [bucketPaths] at hq
    · simp [bucketPaths]
    · exact listDir_paths_nodup hwf cfg.source_path
  have hLnd : (surplus (buildHashes st.fs (listDir st.fs cfg.source_path) [])).Nodup :=
    (surplus_sublist _).nodup hnd
  have hLmem : ∀ p ∈ surplus (buildHashes st.fs (listDir st.fs cfg.source_path) []),
      fsExists (hashStage cfg st).fs p = true ∧ inDir cfg.source_path p = true := by
    intro p hp
    have hpb : p ∈ bucketPaths (buildHashes st.fs (listDir st.fs cfg.source_path) []) :=
      (surplus_sublist _).mem hp
    obtain ⟨l, hlm, hpl⟩ := List.mem_flatten.mp hpb
    obtain ⟨hl, hhm, hle⟩ := List.mem_map.mp hlm
    obtain ⟨hh, hind⟩ := hP hl hhm p (by rw [hle]; exact hpl)
    rw [hashStage_fs]
    exact ⟨fsExists_of_hash_some hh, hind⟩
  obtain ⟨d1, d2, d3, d4, d5, d6⟩ :=
    dupSeq_spec hdry hsd (surplus (buildHashes st.fs (listDir st.fs cfg.source_path) []))
      (hashStage cfg st) hLnd hLmem
  have hfh2 : (find_duplicates cfg st).file_hashes
      = buildHashes st.fs (listDir st.fs cfg.source_path) [] := by
    rw [hfd, d5, hashStage_file_hashes, hfh]
  constructor
  · intro hl hlmem hlen
    rw [hfh2] at hlmem
    have hheadmem : hl.2.headD [] ∈ hl.2 := by
      rcases hps : hl.2 with _ | ⟨p₀, tail⟩
      · rw [hps] at hlen
        simp at hlen
      · exact List.mem_cons_self _ _
    obtain ⟨hh, hind⟩ := hP hl hlmem (hl.2.headD []) hheadmem
    have hhex : fsExists st.fs (hl.2.headD []) = true := fsExists_of_hash_some hh
    have hhead_not : hl.2.headD [] ∉ surplus (buildHashes st.fs (listDir st.fs cfg.source_path) []) :=
      head_not_in_surplus _ hnd hl hlmem hlen
    have hlook : fsLookup (find_duplicates cfg st).fs (hl.2.headD [])
        = fsLookup st.fs (hl.2.headD []) := by
      rw [hfd]
      rw [d3 _ hhead_not (by rw [hashStage_fs]; exact hhex)]
      rw [hashStage_fs]
    constructor
    · exact ⟨hlook, by rw [fsExists_eq_isSome, hlook, ← fsExists_eq_isSome]; exact hhex⟩
    · intro p hp
      have hps : p ∈ surplus (buildHashes st.fs (listDir st.fs cfg.source_path) []) :=
        mem_surplus hlmem hp
      obtain ⟨hgone, q, ts, hop, hqd, hqex⟩ := d2 p hps
      exact ⟨by rw [hfd]; exact hgone, q, ts, by rw [hfd]; exact hop, hqd,
        by rw [hfd]; exact hqex⟩
  · rw [hfh2, hfd, d1, hashStage_stats, surplus_length]

/-- Witness for C5 on `fsDups`: the three byte-identical `.jpg` files
form one group, its head `a.jpg` stays, `b.jpg` and `c.jpg` move. -/
theorem C5_duplicate_groups_first_kept_rest_moved_witness :
    (cfgRun.dry_run = false ∧ cfgRun.no_duplicates = false ∧ WFfs (initState fsDups).fs ∧
      (initState fsDups).file_hashes = [] ∧
      cfgRun.source_path ≠ cfgRun.target_path ++ ["Duplicates"]) ∧
    ((∀ hl ∈ (find_duplicates cfgRun (initState fsDups)).file_hashes, 1 < hl.2.length →
      (fsLookup (find_duplicates cfgRun (initState fsDups)).fs (hl.2.headD [])
          = fsLookup (initState fsDups).fs (hl.2.headD []) ∧
        fsExists (find_duplicates cfgRun (initState fsDups)).fs (hl.2.headD []) = true) ∧
      (∀ p ∈ hl.2.drop 1,
        fsExists (find_duplicates cfgRun (initState fsDups)).fs p = false ∧
        ∃ q ts, Op.move p q ts ∈ (find_duplicates cfgRun (initState fsDups)).history ∧
          q.dropLast = cfgRun.target_path ++ ["Duplicates"] ∧
          fsExists (find_duplicates cfgRun (initState fsDups)).fs q = true)) ∧
    (find_duplicates cfgRun (initState fsDups)).stats.duplicates_found
      = (initState fsDups).stats.duplicates_found
        + excessDuplicates (find_duplicates cfgRun (initState fsDups)).file_hashes) :=
  ⟨⟨rfl, rfl, by unfold WFfs; decide, rfl, by decide⟩,
   C5_duplicate_groups_first_kept_rest_moved rfl rfl (by unfold WFfs; decide) rfl (by decide)⟩

/-! ### Phase frame lemmas -/

theorem fileName_concat (dir : FsPath) (n : String) : fileName (dir ++ [n]) = n := by
  simp [fileName]

theorem foldl_lookup_invariant {α : Type} (f : CleanerState → α → CleanerState) (q : FsPath)
    (hf : ∀ s a, fsLookup (f s a).fs q = fsLookup s.fs q) :
    ∀ (l : List α) (st : CleanerState),
      fsLookup (l.foldl f st).fs q = fsLookup st.fs q := by
  intro l
  induction l with
  | nil => intro st; rfl
  | cons a t ih => intro st; rw [List.foldl_cons, ih, hf]

theorem foldl_wf_invariant {α : Type} (f : CleanerState → α → CleanerState)
    (hf : ∀ s a, WFfs s.fs → WFfs (f s a).fs) :
    ∀ (l : List α) (st : CleanerState), WFfs st.fs → WFfs (l.foldl f st).fs := by
  intro l
  induction l with
  | nil => intro st h; exact h
  | cons a t ih => intro st h; exact ih _ (hf st a h)

theorem foldl_sublist_invariant {α : Type} (f : CleanerState → α → CleanerState)
    (hf : ∀ s a, List.Sublist (f s a).fs s.fs) :
    ∀ (l : List α) (st : CleanerState), List.Sublist (l.foldl f st).fs st.fs := by
  intro l
  induction l with
  | nil => intro st; exact List.Sublist.refl _
  | cons a t ih => intro st; exact (ih (f st a)).trans (hf st a)

theorem foldl_hashes_invariant {α : Type} (f : CleanerState → α → CleanerState)
    (hf : ∀ s a, (f s a).file_hashes = s.file_hashes) :
    ∀ (l : List α) (st : CleanerState), (l.foldl f st).file_hashes = st.file_hashes := by
  intro l
  induction l with
  | nil => intro st; rfl
  | cons a t ih => intro st; rw [List.foldl_cons, ih, hf]

theorem clean_temp_lookup (cfg : Config) (st : CleanerState) {q : FsPath}
    (hq : isTemp (fileName q) = false) :
    fsLookup (clean_temp_files cfg st).fs q = fsLookup st.fs q := by
  unfold clean_temp_files
  cases hskip : cfg.no_temp_clean
  · simp only [hskip, Bool.false_eq_true, if_false]
    apply foldl_lookup_invariant
    intro s e
    by_cases ht : isTemp (fileName e.path)
    · have hne : q ≠ e.path := by
        intro h
        rw [h, ht] at hq
        cases hq
      by_cases hdry : cfg.dry_run
      · simp [ht, remove_file, hdry]
      · simp only [ht, if_true]
        show fsLookup (remove_file cfg s e.path).fs q = _
        rw [remove_file_fs _ _ (Bool.eq_false_iff.mpr hdry), fsLookup_erase, if_neg hne]
    · simp [ht]
  · simp [hskip]

theorem clean_temp_wf (cfg : Config) (st : CleanerState) (hwf : WFfs st.fs) :
    WFfs (clean_temp_files cfg st).fs := by
  unfold clean_temp_files
  cases hskip : cfg.no_temp_clean
  · simp only [hskip, Bool.false_eq_true, if_false]
    apply foldl_wf_invariant _ ?_ _ st hwf
    intro s e hswf
    by_cases ht : isTemp (fileName e.path)
    · by_cases hdry : cfg.dry_run
      · simpa [ht, remove_file, hdry] using hswf
      · simp only [ht, if_true]
        show WFfs (remove_file cfg s e.path).fs
        rw [remove_file_fs _ _ (Bool.eq_false_iff.mpr hdry)]
        exact WFfs_erase hswf _
    · simpa [ht] using hswf
  · simpa [hskip] using hwf

theorem clean_temp_sublist (cfg : Config) (st : CleanerState) :
    List.Sublist (clean_temp_files cfg st).fs st.fs := by
  unfold clean_temp_files
  cases hskip : cfg.no_temp_clean
  · simp only [hskip, Bool.false_eq_true, if_false]
    apply foldl_sublist_invariant
    intro s e
    by_cases ht : isTemp (fileName e.path)
    · by_cases hdry : cfg.dry_run
      · simp [ht, remove_file, hdry]
      · simp only [ht, if_true]
        show List.Sublist (remove_file cfg s e.path).fs s.fs
        rw [remove_file_fs _ _ (Bool.eq_false_iff.mpr hdry)]
        exact List.filter_sublist s.fs
    · simp [ht]
  · simp [hskip]

theorem clean_temp_file_hashes (cfg : Config) (st : CleanerState) :
    (clean_temp_files cfg st).file_hashes = st.file_hashes := by
  unfold clean_temp_files
  cases hskip : cfg.no_temp_clean
  · simp only [hskip, Bool.false_eq_true, if_false]
    apply foldl_hashes_invariant
    intro s e
    by_cases ht : isTemp (fileName e.path) <;> simp [ht, remove_file]
  · simp [hskip]

theorem dupStep_wf (cfg : Config) (s : CleanerState) (p : FsPath) (hwf : WFfs s.fs) :
    WFfs (dupStep cfg s p).fs := by
  rw [dupStep_fs_eq]
  exact move_file_wf _ _ hwf

theorem find_duplicates_wf (cfg : Config) (st : CleanerState) (hwf : WFfs st.fs) :
    WFfs (find_duplicates cfg st).fs := by
  unfold find_duplicates
  cases hskip : cfg.no_duplicates
  · simp only [hskip, Bool.false_eq_true, if_false]
    rw [moveDuplicates_flat]
    exact foldl_wf_invariant _ (fun s p h => dupStep_wf cfg s p h) _ (hashStage cfg st) hwf
  · simpa [hskip] using hwf

/-! ### The categorization loop -/

theorem catStep_frame {cfg : Config} {s : CleanerState} {e : Entry} {q : FsPath}
    (hdry : cfg.dry_run = false) (hq : q ≠ e.path) (hex : fsExists s.fs q = true) :
    fsLookup (catStep cfg s e).fs q = fsLookup s.fs q := by
  unfold catStep
  by_cases ht : isTemp (fileName e.path)
  · simp [ht]
  · simp only [ht, Bool.false_eq_true, if_false]
    show fsLookup (move_file cfg s e.path _).fs q = _
    exact move_file_lookup_other hdry hq hex

theorem catStep_preserves_absent {cfg : Config} {s : CleanerState} {e : Entry} {q : FsPath}
    (hdry : cfg.dry_run = false)
    (hq : ∀ c : String, q.dropLast ≠ cfg.target_path ++ [c])
    (habs : fsExists s.fs q = false) : fsExists (catStep cfg s e).fs q = false := by
  unfold catStep
  by_cases ht : isTemp (fileName e.path)
  · simpa [ht] using habs
  · simp only [ht, Bool.false_eq_true, if_false]
    show fsExists (move_file cfg s e.path _).fs q = false
    apply move_file_not_exists hdry _ habs
    intro hqq
    apply hq (get_category (fileName e.path))
    rw [hqq, resolveDest_dropLast]
    rw [show cfg.target_path ++ [get_category (fileName e.path), fileName e.path]
        = (cfg.target_path ++ [get_category (fileName e.path)]) ++ [fileName e.path] by simp]
    rw [List.dropLast_concat]

theorem catStep_history_mono (cfg : Config) (s : CleanerState) (e : Entry) :
    ∀ op ∈ s.history, op ∈ (catStep cfg s e).history := by
  intro op hop
  unfold catStep
  by_cases ht : isTemp (fileName e.path)
  · simpa [ht] using hop
  · simp only [ht, Bool.false_eq_true, if_false]
    show op ∈ (move_file cfg s e.path _).history
    rw [move_file_history]
    exact List.mem_append_left _ hop

theorem catFold_frame {cfg : Config} (hdry : cfg.dry_run = false) (q : FsPath) :
    ∀ (l : List Entry) (s : CleanerState),
    (∀ e ∈ l, e.path ≠ q) → fsExists s.fs q = true →
    fsLookup ((l.foldl (catStep cfg) s)).fs q = fsLookup s.fs q := by
  intro l
  induction l with
  | nil => intro s _ _; rfl
  | cons e t ih =>
    intro s hne hex
    rw [List.foldl_cons]
    have hstep : fsLookup (catStep cfg s e).fs q = fsLookup s.fs q :=
      catStep_frame hdry (fun h => hne e (List.mem_cons_self _ _) h.symm) hex
    rw [ih _ (fun e' he' => hne e' (List.mem_cons_of_mem _ he')) ?_, hstep]
    rw [fsExists_eq_isSome, hstep, ← fsExists_eq_isSome]
    exact hex

theorem catFold_absent {cfg : Config} (hdry : cfg.dry_run = false) (q : FsPath)
    (hq : ∀ c : String, q.dropLast ≠ cfg.target_path ++ [c]) :
    ∀ (l : List Entry) (s : CleanerState),
    fsExists s.fs q = false → fsExists ((l.foldl (catStep cfg) s)).fs q = false := by
  intro l
  induction l with
  | nil => intro s h; exact h
  | cons e t ih =>
    intro s habs
    rw [List.foldl_cons]
    exact ih _ (catStep_preserves_absent hdry hq habs)

theorem catFold_history_mono (cfg : Config) :
    ∀ (l : List Entry) (s : CleanerState),
    ∀ op ∈ s.history, op ∈ ((l.foldl (catStep cfg) s)).history := by
  intro l
  induction l with
  | nil => intro s op h; exact h
  | cons e t ih =>
    intro s op h
    rw [List.foldl_cons]
    exact ih _ op (catStep_history_mono cfg s e op h)

/-! ### The merge phase and history persistence -/

theorem mem_insertByName (e : Entry) : ∀ (l : List Entry) (x : Entry),
    x ∈ insertByName e l ↔ x = e ∨ x ∈ l := by
  intro l
  induction l with
  | nil => intro x; simp [insertByName]
  | cons a t ih =>
    intro x
    unfold insertByName
    by_cases hlt : fileName e.path < fileName a.path
    · simp [hlt]
    · simp only [hlt, if_false, List.mem_cons, ih]
      tauto

theorem mem_sortByName (x : Entry) : ∀ (l : List Entry), x ∈ sortByName l ↔ x ∈ l := by
  intro l
  induction l with
  | nil => simp [sortByName]
  | cons a t ih =>
    show x ∈ insertByName a (sortByName t) ↔ _
    rw [mem_insertByName, ih]
    simp

theorem foldl_erase_lookup (q : FsPath) : ∀ (l : List Entry) (fs : FS),
    (∀ e ∈ l, e.path ≠ q) →
    fsLookup (l.foldl (fun f e => fsErase f e.path) fs) q = fsLookup fs q := by
  intro l
  induction l with
  | nil => intro fs _; rfl
  | cons e t ih =>
    intro fs hne
    rw [List.foldl_cons, ih _ (fun e' he' => hne e' (List.mem_cons_of_mem _ he')),
      fsLookup_erase, if_neg ?_]
    intro h
    exact hne e (List.mem_cons_self _ _) h.symm

theorem merge_pdf_files_lookup (cfg : Config) (st : CleanerState) {q : FsPath}
    (hq : q.dropLast ≠ cfg.target_path ++ ["PDFs"]) :
    fsLookup (merge_pdf_files cfg st).fs q = fsLookup st.fs q := by
  unfold merge_pdf_files
  dsimp only
  split
  · rfl
  split
  · rfl
  split
  · rfl
  split
  · rfl
  by_cases hdry : cfg.dry_run
  · simp [hdry]
  · simp only [hdry, Bool.false_eq_true, if_false]
    rw [foldl_erase_lookup]
    · rw [fsLookup_write, if_neg ?_]
      intro h
      apply hq
      rw [h, List.dropLast_concat]
    · intro e he
      have he1 : e ∈ (listDir st.fs (cfg.target_path ++ ["PDFs"])).filter
          (fun e => strEndsWith (fileName e.path) ".pdf") := (mem_sortByName e _).mp he
      have he2 : e ∈ listDir st.fs (cfg.target_path ++ ["PDFs"]) := (List.mem_filter.mp he1).1
      have hin : inDir (cfg.target_path ++ ["PDFs"]) e.path = true := (List.mem_filter.mp he2).2
      obtain ⟨_, hdl⟩ := inDir_eq_true_iff.mp hin
      intro hpq
      apply hq
      rw [← hpq, hdl]

theorem merge_pdf_files_history_mono (cfg : Config) (st : CleanerState) :
    ∀ op ∈ st.history, op ∈ (merge_pdf_files cfg st).history := by
  intro op hop
  unfold merge_pdf_files
  dsimp only
  split
  · exact hop
  split
  · exact hop
  split
  · exact hop
  split
  · exact hop
  exact List.mem_append_left _ hop

theorem save_history_none {cfg : Config} {st : CleanerState}
    (hdry : cfg.dry_run = false) (hne : st.history ≠ [])
    (habs : fsLookup st.fs (cfg.source_path ++ [HISTORY_FILE]) = none) :
    save_history cfg st =
      { st with
          fs := fsWrite st.fs (cfg.source_path ++ [HISTORY_FILE])
            (Content.store [⟨st.clock, st.history, st.stats⟩]),
          clock := st.clock + 1 } := by
  have hie : st.history.isEmpty = false := by
    cases hh : st.history with
    | nil => exact absurd hh hne
    | cons a t => rfl
  unfold save_history
  dsimp only
  rw [habs]
  simp [hdry, hie]

/-! ### The history file through a full run -/

theorem bucket_sublist {m : List (Content × List FsPath)} {hl : Content × List FsPath}
    (hm : hl ∈ m) : List.Sublist hl.2 (bucketPaths m) := by
  induction m with
  | nil => cases hm
  | cons hl₀ rest ih =>
    rw [bucketPaths_cons]
    rcases List.mem_cons.mp hm with he | he
    · rw [he]
      exact List.sublist_append_left _ _
    · exact (ih he).trans (List.sublist_append_right _ _)

/-- While scanning for duplicates, a file whose content is shared by no
other file of the source listing is never moved: its digest group is a
singleton, so it is not a surplus member. -/
theorem find_duplicates_preserves_unique {cfg : Config} {st : CleanerState} {s : List Session}
    (hdry : cfg.dry_run = false) (hwf : WFfs st.fs)
    (hl : fsLookup st.fs (cfg.source_path ++ [HISTORY_FILE])
        = some ⟨cfg.source_path ++ [HISTORY_FILE], Content.store s, true⟩)
    (huniq : ∀ e ∈ listDir st.fs cfg.source_path,
        e.path ≠ cfg.source_path ++ [HISTORY_FILE] → e.content ≠ Content.store s)
    (hfh : st.file_hashes = [])
    (hsd : cfg.source_path ≠ cfg.target_path ++ ["Duplicates"]) :
    fsLookup (find_duplicates cfg st).fs (cfg.source_path ++ [HISTORY_FILE])
      = fsLookup st.fs (cfg.source_path ++ [HISTORY_FILE]) := by
  cases hskip : cfg.no_duplicates with
  | true => unfold find_duplicates; simp [hskip]
  | false =>
  have hfd : find_duplicates cfg st
      = (surplus (buildHashes st.fs (listDir st.fs cfg.source_path) [])).foldl (dupStep cfg)
        (hashStage cfg st) := by
    unfold find_duplicates
    rw [if_neg (by simp [hskip]), moveDuplicates_flat, hashStage_file_hashes, hfh]
  have hP : ∀ hl ∈ buildHashes st.fs (listDir st.fs cfg.source_path) [], ∀ q ∈ hl.2,
      calculate_hash st.fs q = some hl.1 ∧ inDir cfg.source_path q = true := by
    apply buildHashes_pred st.fs
      (fun h q => calculate_hash st.fs q = some h ∧ inDir cfg.source_path q = true)
    · intro e hef h hh
      exact ⟨hh, (List.mem_filter.mp hef).2⟩
    · intro hl hmem
      cases hmem
  have hnd : (bucketPaths (buildHashes st.fs (listDir st.fs cfg.source_path) [])).Nodup := by
    apply buildHashes_nodup
    · intro q hq
      simp [bucketPaths] at hq
    · simp [bucketPaths]
    · exact listDir_paths_nodup hwf cfg.source_path
  have hLnd : (surplus (buildHashes st.fs (listDir st.fs cfg.source_path) [])).Nodup :=
    (surplus_sublist _).nodup hnd
  have hLmem : ∀ p ∈ surplus (buildHashes st.fs (listDir st.fs cfg.source_path) []),
      fsExists (hashStage cfg st).fs p = true ∧ inDir cfg.source_path p = true := by
    intro p hp
    have hpb : p ∈ bucketPaths (buildHashes st.fs (listDir st.fs cfg.source_path) []) :=
      (surplus_sublist _).mem hp
    obtain ⟨l, hlm, hpl⟩ := List.mem_flatten.mp hpb
    obtain ⟨hl', hhm, hle⟩ := List.mem_map.mp hlm
    obtain ⟨hh, hind⟩ := hP hl' hhm p (by rw [hle]; exact hpl)
    rw [hashStage_fs]
    exact ⟨fsExists_of_hash_some hh, hind⟩
  obtain ⟨d1, d2, d3, d4, d5, d6⟩ :=
    dupSeq_spec hdry hsd (surplus (buildHashes st.fs (listDir st.fs cfg.source_path) []))
      (hashStage cfg st) hLnd hLmem
  have hpnot : (cfg.source_path ++ [HISTORY_FILE])
      ∉ surplus (buildHashes st.fs (listDir st.fs cfg.source_path) []) := by
    intro hps
    obtain ⟨l, hlm, hpl⟩ := List.mem_flatten.mp hps
    obtain ⟨hl₀, hm₀, hle⟩ := List.mem_map.mp hlm
    have hpdrop : cfg.source_path ++ [HISTORY_FILE] ∈ hl₀.2.drop 1 := by
      rw [hle]; exact hpl
    have hpbucket : cfg.source_path ++ [HISTORY_FILE] ∈ hl₀.2 :=
      (List.drop_sublist 1 _).mem hpdrop
    obtain ⟨hhash, _⟩ := hP hl₀ hm₀ _ hpbucket
    have hhp : calculate_hash st.fs (cfg.source_path ++ [HISTORY_FILE])
        = some (Content.store s) := by
      unfold calculate_hash
      rw [hl]
      rfl
    have hkey : hl₀.1 = Content.store s := by
      rw [hhash] at hhp
      exact Option.some.inj hhp
    have hall : ∀ q ∈ hl₀.2, q = cfg.source_path ++ [HISTORY_FILE] := by
      intro q hq
      obtain ⟨hqh, hqin⟩ := hP hl₀ hm₀ q hq
      rw [hkey] at hqh
      unfold calculate_hash at hqh
      rcases hql : fsLookup st.fs q with _ | e'
      · rw [hql] at hqh
        cases hqh
      · rw [hql] at hqh
        by_cases hr : e'.readable
        · simp only [hr, if_true] at hqh
          have hc : e'.content = Content.store s := Option.some.inj hqh
          obtain ⟨hemem, hepath⟩ := mem_of_fsLookup hql
          have helist : e' ∈ listDir st.fs cfg.source_path :=
            List.mem_filter.mpr ⟨hemem, by rw [hepath]; exact hqin⟩
          by_cases hph : e'.path = cfg.source_path ++ [HISTORY_FILE]
          · rw [← hepath, hph]
          · exact absurd hc (huniq e' helist hph)
        · have hrf : e'.readable = false := Bool.eq_false_iff.mpr hr
          simp [hrf] at hqh
    have hbnd : hl₀.2.Nodup := (bucket_sublist hm₀).nodup hnd
    rcases hcase : hl₀.2 with _ | ⟨p₀, tail⟩
    · rw [hcase] at hpbucket
      cases hpbucket
    · have hp₀ : p₀ = cfg.source_path ++ [HISTORY_FILE] :=
        hall p₀ (by rw [hcase]; exact List.mem_cons_self _ _)
      have htail : cfg.source_path ++ [HISTORY_FILE] ∈ tail := by
        rw [hcase] at hpdrop
        simpa using hpdrop
      rw [hcase] at hbnd
      exact (List.nodup_cons.mp hbnd).1 (hp₀ ▸ htail)
  rw [hfd, d3 _ hpnot (by rw [hashStage_fs]; exact fsExists_of_lookup_some hl), hashStage_fs]

theorem lookup_none_of_not_exists {fs : FS} {p : FsPath} (h : fsExists fs p = false) :
    fsLookup fs p = none := by
  rw [fsExists_eq_isSome] at h
  exact Option.not_isSome_iff_eq_none.mp (by rw [h]; exact Bool.false_ne_true)

/-- One `categorize_files` step applied to the history store file: its name
is not a temp extension and classifies as `Code`, so the step is a
counted move towards `target / Code / .cleanup_history.json`. -/
theorem catStep_history_entry (cfg : Config) (s1 : CleanerState) (src : FsPath)
    (c : Content) (r : Bool) :
    catStep cfg s1 ⟨src ++ [HISTORY_FILE], c, r⟩
      = { move_file cfg s1 (src ++ [HISTORY_FILE]) (cfg.target_path ++ ["Code", HISTORY_FILE]) with
          stats := { (move_file cfg s1 (src ++ [HISTORY_FILE])
              (cfg.target_path ++ ["Code", HISTORY_FILE])).stats with
            categorized := (move_file cfg s1 (src ++ [HISTORY_FILE])
              (cfg.target_path ++ ["Code", HISTORY_FILE])).stats.categorized + 1 } } := by
  unfold catStep
  rw [show (⟨src ++ [HISTORY_FILE], c, r⟩ : Entry).path = src ++ [HISTORY_FILE] from rfl,
    fileName_concat,
    show isTemp HISTORY_FILE = false from by decide,
    show get_category HISTORY_FILE = "Code" from by decide]
  rfl

/-- `categorize_files` relocates the history store file to a fresh path
directly under `target / Code`, removes it from the source directory, and
logs the move (so the session log is nonempty afterwards). -/
theorem categorize_moves_history_file {cfg : Config} {st : CleanerState} {s : List Session}
    (hdry : cfg.dry_run = false) (hwf : WFfs st.fs)
    (hl : fsLookup st.fs (cfg.source_path ++ [HISTORY_FILE])
        = some ⟨cfg.source_path ++ [HISTORY_FILE], Content.store s, true⟩)
    (hdirs : ∀ c : String, cfg.target_path ++ [c] ≠ cfg.source_path) :
    ∃ q, q.dropLast = cfg.target_path ++ ["Code"] ∧
      fsLookup (categorize_files cfg st).fs q = some ⟨q, Content.store s, true⟩ ∧
      fsExists (categorize_files cfg st).fs (cfg.source_path ++ [HISTORY_FILE]) = false ∧
      (categorize_files cfg st).history ≠ [] := by
  obtain ⟨hmem, hpath⟩ := mem_of_fsLookup hl
  have hin : inDir cfg.source_path (cfg.source_path ++ [HISTORY_FILE]) = true := by
    rw [inDir_eq_true_iff]
    exact ⟨by simp, List.dropLast_concat⟩
  have hlist : (⟨cfg.source_path ++ [HISTORY_FILE], Content.store s, true⟩ : Entry)
      ∈ listDir st.fs cfg.source_path :=
    List.mem_filter.mpr ⟨hmem, hin⟩
  obtain ⟨l₁, l₂, hsplit⟩ := List.append_of_mem hlist
  have hnd : (pathsOf (listDir st.fs cfg.source_path)).Nodup := listDir_paths_nodup hwf _
  rw [hsplit] at hnd
  have hnd2 : (pathsOf l₁ ++ (cfg.source_path ++ [HISTORY_FILE]) :: pathsOf l₂).Nodup := by
    simpa [pathsOf] using hnd
  rw [List.nodup_middle, List.nodup_cons] at hnd2
  have hne1 : ∀ e ∈ l₁, e.path ≠ cfg.source_path ++ [HISTORY_FILE] := by
    intro e he h
    exact hnd2.1 (List.mem_append_left _ (h ▸ List.mem_map_of_mem (fun x => x.path) he))
  have hcat : categorize_files cfg st
      = l₂.foldl (catStep cfg)
          (catStep cfg (l₁.foldl (catStep cfg) st)
            ⟨cfg.source_path ++ [HISTORY_FILE], Content.store s, true⟩) := by
    unfold categorize_files
    rw [hsplit, List.foldl_append, List.foldl_cons]
  have hl1 : fsLookup ((l₁.foldl (catStep cfg) st)).fs (cfg.source_path ++ [HISTORY_FILE])
      = some ⟨cfg.source_path ++ [HISTORY_FILE], Content.store s, true⟩ := by
    rw [catFold_frame hdry _ l₁ st hne1 (fsExists_of_lookup_some hl)]
    exact hl
  have hq2 : fsLookup (catStep cfg (l₁.foldl (catStep cfg) st)
        ⟨cfg.source_path ++ [HISTORY_FILE], Content.store s, true⟩).fs
        (resolveDest ((l₁.foldl (catStep cfg) st)).fs (cfg.target_path ++ ["Code", HISTORY_FILE]))
      = some ⟨resolveDest ((l₁.foldl (catStep cfg) st)).fs
          (cfg.target_path ++ ["Code", HISTORY_FILE]), Content.store s, true⟩ := by
    rw [catStep_history_entry]
    show fsLookup (move_file cfg (l₁.foldl (catStep cfg) st)
        (cfg.source_path ++ [HISTORY_FILE]) (cfg.target_path ++ ["Code", HISTORY_FILE])).fs _ = _
    exact move_file_lookup_dest hdry hl1
  have habs2 : fsExists (catStep cfg (l₁.foldl (catStep cfg) st)
        ⟨cfg.source_path ++ [HISTORY_FILE], Content.store s, true⟩).fs
        (cfg.source_path ++ [HISTORY_FILE]) = false := by
    rw [catStep_history_entry]
    show fsExists (move_file cfg (l₁.foldl (catStep cfg) st)
        (cfg.source_path ++ [HISTORY_FILE]) (cfg.target_path ++ ["Code", HISTORY_FILE])).fs _
      = false
    rw [fsExists_eq_isSome, move_file_lookup_src hdry hl1]
    rfl
  have hqdrop : (resolveDest ((l₁.foldl (catStep cfg) st)).fs
      (cfg.target_path ++ ["Code", HISTORY_FILE])).dropLast = cfg.target_path ++ ["Code"] := by
    rw [resolveDest_dropLast,
      show cfg.target_path ++ ["Code", HISTORY_FILE]
        = (cfg.target_path ++ ["Code"]) ++ [HISTORY_FILE] from by simp,
      List.dropLast_concat]
  have hne2 : ∀ e ∈ l₂, e.path ≠ resolveDest ((l₁.foldl (catStep cfg) st)).fs
      (cfg.target_path ++ ["Code", HISTORY_FILE]) := by
    intro e he h
    have helist : e ∈ listDir st.fs cfg.source_path := by
      rw [hsplit]
      exact List.mem_append_right _ (List.mem_cons_of_mem _ he)
    have hein : inDir cfg.source_path e.path = true := (List.mem_filter.mp helist).2
    obtain ⟨_, hedrop⟩ := inDir_eq_true_iff.mp hein
    apply hdirs "Code"
    rw [← hedrop, h, hqdrop]
  refine ⟨resolveDest ((l₁.foldl (catStep cfg) st)).fs
      (cfg.target_path ++ ["Code", HISTORY_FILE]), hqdrop, ?_, ?_, ?_⟩
  · rw [hcat, catFold_frame hdry _ l₂ _ hne2 (fsExists_of_lookup_some hq2)]
    exact hq2
  · rw [hcat]
    apply catFold_absent hdry _ ?_ l₂ _ habs2
    intro c h
    apply hdirs c
    rw [← h, List.dropLast_concat]
  · rw [hcat]
    have hop : Op.move (cfg.source_path ++ [HISTORY_FILE])
        (resolveDest ((l₁.foldl (catStep cfg) st)).fs
          (cfg.target_path ++ ["Code", HISTORY_FILE]))
        ((l₁.foldl (catStep cfg) st)).clock
        ∈ (catStep cfg (l₁.foldl (catStep cfg) st)
            ⟨cfg.source_path ++ [HISTORY_FILE], Content.store s, true⟩).history := by
      rw [catStep_history_entry]
      show _ ∈ (move_file cfg (l₁.foldl (catStep cfg) st)
          (cfg.source_path ++ [HISTORY_FILE]) (cfg.target_path ++ ["Code", HISTORY_FILE])).history
      rw [move_file_history]
      exact List.mem_append_right _ (List.mem_singleton.mpr rfl)
    exact List.ne_nil_of_mem (catFold_history_mono cfg l₂ _ _ hop)

/-- C10: a non-preview run over a source directory that still holds the
history store of an earlier run (with no other source file sharing its
digest) relocates that store file to a fresh path under the `Code`
category folder, so `save_history` finds nothing at the fixed location and
writes a brand-new store holding only the current session. -/
theorem C10_history_store_relocated_and_recreated {cfg : Config} {fs : FS} {s : List Session}
    (hdry : cfg.dry_run = false)
    (hwf : WFfs fs)
    (hl : fsLookup fs (cfg.source_path ++ [HISTORY_FILE])
        = some ⟨cfg.source_path ++ [HISTORY_FILE], Content.store s, true⟩)
    (huniq : ∀ e ∈ listDir fs cfg.source_path,
        e.path ≠ cfg.source_path ++ [HISTORY_FILE] → e.content ≠ Content.store s)
    (hlen : cfg.source_path.length ≠ cfg.target_path.length + 1) :
    (∃ q, q.dropLast = cfg.target_path ++ ["Code"] ∧
      fsLookup (runPipeline cfg (initState fs)).fs q = some ⟨q, Content.store s, true⟩) ∧
    (∃ sess, fsLookup (runPipeline cfg (initState fs)).fs (cfg.source_path ++ [HISTORY_FILE])
        = some ⟨cfg.source_path ++ [HISTORY_FILE], Content.store [sess], true⟩ ∧
      sess.operations ≠ []) := by
  have hdirs : ∀ c : String, cfg.target_path ++ [c] ≠ cfg.source_path := by
    intro c h
    apply hlen
    rw [← h]
    simp
  have hsd : cfg.source_path ≠ cfg.target_path ++ ["Duplicates"] :=
    fun h => hdirs "Duplicates" h.symm
  have htempname : isTemp (fileName (cfg.source_path ++ [HISTORY_FILE])) = false := by
    rw [fileName_concat]
    decide
  have h1l : fsLookup (clean_temp_files cfg (initState fs)).fs
      (cfg.source_path ++ [HISTORY_FILE])
      = some ⟨cfg.source_path ++ [HISTORY_FILE], Content.store s, true⟩ := by
    rw [clean_temp_lookup cfg (initState fs) htempname]
    exact hl
  have h1wf : WFfs (clean_temp_files cfg (initState fs)).fs :=
    clean_temp_wf cfg (initState fs) hwf
  have h1fh : (clean_temp_files cfg (initState fs)).file_hashes = [] :=
    clean_temp_file_hashes cfg (initState fs)
  have h1uniq : ∀ e ∈ listDir (clean_temp_files cfg (initState fs)).fs cfg.source_path,
      e.path ≠ cfg.source_path ++ [HISTORY_FILE] → e.content ≠ Content.store s := by
    intro e he
    apply huniq
    obtain ⟨hef, hei⟩ := List.mem_filter.mp he
    exact List.mem_filter.mpr ⟨(clean_temp_sublist cfg (initState fs)).mem hef, hei⟩
  have h2l : fsLookup (find_duplicates cfg (clean_temp_files cfg (initState fs))).fs
      (cfg.source_path ++ [HISTORY_FILE])
      = some ⟨cfg.source_path ++ [HISTORY_FILE], Content.store s, true⟩ := by
    rw [find_duplicates_preserves_unique hdry h1wf h1l h1uniq h1fh hsd]
    exact h1l
  have h2wf : WFfs (find_duplicates cfg (clean_temp_files cfg (initState fs))).fs :=
    find_duplicates_wf cfg _ h1wf
  obtain ⟨q, hqd, hq3, habs3, hh3⟩ :=
    categorize_moves_history_file hdry h2wf h2l hdirs
  obtain ⟨op, hopmem⟩ := List.exists_mem_of_ne_nil _ hh3
  have h4q : fsLookup (merge_pdf_files cfg (categorize_files cfg
        (find_duplicates cfg (clean_temp_files cfg (initState fs))))).fs q
      = some ⟨q, Content.store s, true⟩ := by
    rw [merge_pdf_files_lookup cfg _ (by rw [hqd]; simp)]
    exact hq3
  have h4hp : fsLookup (merge_pdf_files cfg (categorize_files cfg
        (find_duplicates cfg (clean_temp_files cfg (initState fs))))).fs
      (cfg.source_path ++ [HISTORY_FILE]) = none := by
    rw [merge_pdf_files_lookup cfg _ (by
      rw [List.dropLast_concat]
      intro h
      exact hdirs "PDFs" h.symm)]
    exact lookup_none_of_not_exists habs3
  have h4h : (merge_pdf_files cfg (categorize_files cfg
      (find_duplicates cfg (clean_temp_files cfg (initState fs))))).history ≠ [] :=
    List.ne_nil_of_mem (merge_pdf_files_history_mono cfg _ op hopmem)
  have hqhp : q ≠ cfg.source_path ++ [HISTORY_FILE] := by
    intro h
    apply hdirs "Code"
    rw [← hqd, h, List.dropLast_concat]
  have hrun : runPipeline cfg (initState fs)
      = save_history cfg (merge_pdf_files cfg (categorize_files cfg
          (find_duplicates cfg (clean_temp_files cfg (initState fs))))) := rfl
  rw [hrun, save_history_none hdry h4h h4hp]
  constructor
  · refine ⟨q, hqd, ?_⟩
    show fsLookup (fsWrite _ (cfg.source_path ++ [HISTORY_FILE]) _) q = _
    rw [fsLookup_write, if_neg hqhp]
    exact h4q
  · refine ⟨⟨(merge_pdf_files cfg (categorize_files cfg
        (find_duplicates cfg (clean_temp_files cfg (initState fs))))).clock,
      (merge_pdf_files cfg (categorize_files cfg
        (find_duplicates cfg (clean_temp_files cfg (initState fs))))).history,
      (merge_pdf_files cfg (categorize_files cfg
        (find_duplicates cfg (clean_temp_files cfg (initState fs))))).stats⟩, ?_, h4h⟩
    show fsLookup (fsWrite _ (cfg.source_path ++ [HISTORY_FILE]) _) _ = _
    rw [fsLookup_write, if_pos rfl]

/-- Witness for C10 on `fsWithHistory`: the old store moves to
`Cleaned/Code/` and the new store holds exactly the current session. -/
theorem C10_history_store_relocated_and_recreated_witness :
    (cfgRun.dry_run = false ∧ WFfs fsWithHistory ∧
      fsLookup fsWithHistory (cfgRun.source_path ++ [HISTORY_FILE])
        = some ⟨cfgRun.source_path ++ [HISTORY_FILE],
            Content.store [⟨1, [Op.delete ["downloads", "old.tmp"] 0], ⟨0, 1, 0, 0, 0⟩⟩],
            true⟩ ∧
      (∀ e ∈ listDir fsWithHistory cfgRun.source_path,
        e.path ≠ cfgRun.source_path ++ [HISTORY_FILE] →
          e.content ≠ Content.store [⟨1, [Op.delete ["downloads", "old.tmp"] 0],
            ⟨0, 1, 0, 0, 0⟩⟩]) ∧
      cfgRun.source_path.length ≠ cfgRun.target_path.length + 1) ∧
    ((∃ q, q.dropLast = cfgRun.target_path ++ ["Code"] ∧
      fsLookup (runPipeline cfgRun (initState fsWithHistory)).fs q
        = some ⟨q, Content.store [⟨1, [Op.delete ["downloads", "old.tmp"] 0],
            ⟨0, 1, 0, 0, 0⟩⟩], true⟩) ∧
    (∃ sess, fsLookup (runPipeline cfgRun (initState fsWithHistory)).fs
          (cfgRun.source_path ++ [HISTORY_FILE])
        = some ⟨cfgRun.source_path ++ [HISTORY_FILE], Content.store [sess], true⟩ ∧
      sess.operations ≠ [])) :=
  ⟨⟨rfl, by unfold WFfs; decide, by decide, by decide, by decide⟩,
   C10_history_store_relocated_and_recreated rfl (by unfold WFfs; decide) (by decide)
     (by decide) (by decide)⟩

end AutoClean
